import Mathlib

/-!
Verification of the CRM entity-resolution pipeline: a shallow embedding of
the deduplication core (match-oracle adapter, blocking, candidate scanning,
transitive clustering, provenance-preserving merging) together with proofs
of the specified properties.

Records are mappings from field names to string values, embedded as ordered
association lists (Python dicts preserve insertion order).  The external
language-model oracle is embedded as a parameter giving the outcome of each
call: either an error message (any exception raised during the call, the
fence stripping, the JSON parse or the field extraction) or the list of
structured decisions successfully parsed from the response.
-/

namespace CrmER

/-- A contact record: field name to string value, in insertion order. -/
abbrev Rec := List (String × String)

/-- Python `dict.get(k)`: value of the first matching key, if present. -/
def Rec.get? (r : Rec) (k : String) : Option String :=
  (r.find? (fun kv => kv.1 == k)).map Prod.snd

/-- Python `dict.get(k, d)`: value of the key if present, else the default. -/
def Rec.getD (r : Rec) (k d : String) : String :=
  (Rec.get? r k).getD d

/-- `record['id']` as used throughout the pipeline (records are assumed to
carry an `id`; absent ids read as the empty string in the embedding). -/
def recId (r : Rec) : String :=
  Rec.getD r "id" ""

/-- Structured output of one entity-pair comparison (`MatchDecision`). -/
structure MatchDecision where
  should_merge : Bool
  confidence : ℚ
  reasoning : String
  evidence_for : List String
  evidence_against : List String
deriving DecidableEq

/-- Python value returned by `EntityResolver.should_merge`: either a single
`MatchDecision` or a list of them. -/
inductive ResolverResult where
  | one : MatchDecision → ResolverResult
  | many : List MatchDecision → ResolverResult
deriving DecidableEq

/-- The decision produced on the exception path of `should_merge`. -/
def errorDecision (e : String) : MatchDecision :=
  ⟨false, 0, "Error: " ++ e, [], []⟩

/-- `EntityResolver.should_merge(pairs=...)`.  `outcome` is the result of the
external call followed by fence stripping, JSON parsing and field
extraction: `.error e` when any of those raised, `.ok result` (already
normalized to a list by the `isinstance` check) otherwise.  On success the
parsed decisions are returned as-is (a bare decision when there is exactly
one); on failure, one error decision per requested pair. -/
def should_merge (pairs : List (Rec × Rec))
    (outcome : Except String (List MatchDecision)) : ResolverResult :=
  match outcome with
  | .ok result =>
      match result with
      | [d] => .one d
      | ds => .many ds
  | .error e =>
      if pairs.length = 1 then .one (errorDecision e)
      else .many (List.replicate pairs.length (errorDecision e))

/-- The caller-side normalization in `find_duplicates`
(`if not isinstance(decisions, list): decisions = [decisions]`). -/
def normalizeDecisions : ResolverResult → List MatchDecision
  | .one d => [d]
  | .many ds => ds

/-! ## Merge strategy (`merge_strategy.py`) -/

/-- A field-value variation with provenance, as collected by
`_collect_field_variations` (`{value, field, source, record_id}`). -/
structure Prov where
  value : String
  field : String
  source : String
  record_id : String
deriving DecidableEq

/-- A provenance entry without the `field` key, as produced for
`other_fields` and for conflict detection (`{value, source, record_id}`). -/
structure OProv where
  value : String
  source : String
  record_id : String
deriving DecidableEq

/-- One entry of the `conflicts` list (`{field, values}`). -/
structure Conflict where
  field : String
  values : List String
deriving DecidableEq

/-- Result of merging multiple entity records (`MergedEntity`). -/
structure MergedEntity where
  canonical_id : String
  canonical_name : String
  all_names : List Prov
  all_emails : List Prov
  all_phones : List Prov
  all_companies : List Prov
  all_titles : List Prov
  other_fields : List (String × List OProv)
  source_records : List Rec
  merge_timestamp : String
  conflicts : List Conflict
deriving DecidableEq

/-- One entity's contribution inside `_collect_field_variations`: walk the
requested field names, appending each present, non-empty, not-yet-seen value
to the variations and recording it in the seen set. -/
def collectEntityStep (entity : Rec) (field_names : List String)
    (acc : List Prov × List String) : List Prov × List String :=
  field_names.foldl (fun a fn =>
    match Rec.get? entity fn with
    | none => a
    | some v =>
        if v = "" then a
        else if v ∈ a.2 then a
        else (a.1 ++ [⟨v, fn, Rec.getD entity "source" "unknown",
                        Rec.getD entity "id" "unknown"⟩], a.2 ++ [v])) acc

/-- `_collect_field_variations`: every non-empty value of the given fields
across the group, in group order, exact duplicates skipped (first occurrence
wins), tagged with source and originating record id. -/
def collect_field_variations (entities : List Rec) (field_names : List String) :
    List Prov :=
  (entities.foldl (fun a e => collectEntityStep e field_names a) ([], [])).1

/-- Python `c in s` for a single character (substring membership). -/
def strContains (s : String) (c : Char) : Bool :=
  s.data.contains c

/-- `_choose_canonical_value`: first variation whose value has no literal
period; else the first variation; else the placeholder. -/
def choose_canonical_value (variations : List Prov) : String :=
  match variations with
  | [] => "Unknown"
  | v0 :: _ =>
      match variations.filter (fun v => !(strContains v.value '.')) with
      | f :: _ => f.value
      | [] => v0.value

/-- Append a provenance entry under a field key in an insertion-ordered
mapping (`dict.setdefault`-style bucket plus `append`). -/
def addOther (m : List (String × List OProv)) (k : String) (p : OProv) :
    List (String × List OProv) :=
  if (m.map Prod.fst).contains k then
    m.map (fun kv => if kv.1 = k then (kv.1, kv.2 ++ [p]) else kv)
  else m ++ [(k, [p])]

/-- Shared bucketing loop: for every entity and every field not excluded and
with a non-empty value, append a `{value, source, record_id}` entry under the
field's bucket.  Instantiated by `_collect_other_fields` (large exclusion
list) and by the `field_values` accumulation of `_detect_conflicts`
(excluding only `id` and `source`). -/
def collectByField (entities : List Rec) (exclude : List String) :
    List (String × List OProv) :=
  entities.foldl (fun m e =>
    e.foldl (fun m2 kv =>
      if kv.1 ∈ exclude ∨ kv.2 = "" then m2
      else addOther m2 kv.1
        ⟨kv.2, Rec.getD e "source" "unknown", Rec.getD e "id" "unknown"⟩) m) []

/-- `_collect_other_fields`. -/
def collect_other_fields (entities : List Rec) (exclude : List String) :
    List (String × List OProv) :=
  collectByField entities exclude

/-- `_detect_conflicts`: for every field (other than `id`/`source`) with
more than one distinct non-empty value across the group, one conflict entry
listing the distinct values (the Python `set` order is embedded as
first-occurrence order). -/
def detect_conflicts (entities : List Rec) : List Conflict :=
  (collectByField entities ["id", "source"]).filterMap (fun kv =>
    let uniq := (kv.2.map OProv.value).dedup
    if uniq.length > 1 then some ⟨kv.1, uniq⟩ else none)

/-- Python `primary_id or fallback` on an optional string (`None` and the
empty string both fall through). -/
def pyOrStr (a : Option String) (b : String) : String :=
  match a with
  | some s => if s = "" then b else s
  | none => b

/-- The exclusion list passed to `_collect_other_fields`. -/
def excludeList : List String :=
  ["full_name", "first_name", "last_name", "email", "phone", "company",
   "title", "id", "source"]

/-- Error message raised by `merge_entities` on an empty group. -/
def emptyGroupMsg : String := "Cannot merge empty entity list."

/-- `MergeStrategy.merge_entities`.  `hist` is the strategy's
`merge_history` before the call and `ts` the timestamp taken at entry; the
result pairs the returned value (or raised error) with the history after the
call. -/
def merge_entities (hist : List MergedEntity) (entities : List Rec)
    (primary_id : Option String) (ts : String) :
    Except String MergedEntity × List MergedEntity :=
  match entities with
  | [] => (.error emptyGroupMsg, hist)
  | e0 :: _ =>
      let canonical_id := pyOrStr primary_id (Rec.getD e0 "id" "merged_entity")
      let all_names := collect_field_variations entities
        ["full_name", "first_name", "last_name"]
      let all_emails := collect_field_variations entities ["email"]
      let all_phones := collect_field_variations entities ["phone"]
      let all_companies := collect_field_variations entities ["company"]
      let all_titles := collect_field_variations entities ["title"]
      let conflicts := detect_conflicts entities
      let canonical_name := choose_canonical_value all_names
      let other_fields := collect_other_fields entities excludeList
      let merged : MergedEntity :=
        ⟨canonical_id, canonical_name, all_names, all_emails, all_phones,
         all_companies, all_titles, other_fields, entities, ts, conflicts⟩
      (.ok merged, hist ++ [merged])

/-! ## Pipeline (`pipeline.py`) -/

/-- Default `confidence_threshold` of `EntityResolutionPipeline.__init__`. -/
def defaultConfidenceThreshold : ℚ := 0.7

/-- The fixed scanner batch size. -/
def batchSize : Nat := 6

/-- Python `str.lower()` (ASCII case folding, applied characterwise). -/
def strLower (s : String) : String :=
  ⟨s.data.map Char.toLower⟩

/-- Block key of a contact: the case-folded `company` field, with the
literal string `unknown` as the catch-all default for records missing it. -/
def blockKey (c : Rec) : String :=
  strLower (Rec.getD c "company" "unknown")

/-- `blocks.setdefault(key, []).append((i, contact))`. -/
def addToBlock (blocks : List (String × List (Nat × Rec))) (k : String)
    (v : Nat × Rec) : List (String × List (Nat × Rec)) :=
  if (blocks.map Prod.fst).contains k then
    blocks.map (fun kv => if kv.1 = k then (kv.1, kv.2 ++ [v]) else kv)
  else blocks ++ [(k, [v])]

/-- The blocking pass of `find_duplicates`: partition the enumerated
contacts by block key, keys in first-occurrence order. -/
def blocksOf (contacts : List Rec) : List (String × List (Nat × Rec)) :=
  contacts.enum.foldl (fun bs ic => addToBlock bs (blockKey ic.2) ic) []

/-- The members of a block (empty when the key is absent). -/
def lookupBlock (blocks : List (String × List (Nat × Rec))) (k : String) :
    List (Nat × Rec) :=
  match blocks.find? (fun kv => kv.1 == k) with
  | some kv => kv.2
  | none => []

/-- All unordered pairs of a list, earlier element first
(`for i ...: for j in range(i+1, ...)`). -/
def allPairs : List α → List (α × α)
  | [] => []
  | x :: xs => (xs.map (fun y => (x, y))) ++ allPairs xs

/-- The intra-block candidate pairs, each as
`((contact_a, contact_b), (idx_a, idx_b))` (the zip of the source's parallel
lists `pairs_to_compare` and `pair_contacts`). -/
def pairsToCompare (contacts : List Rec) :
    List ((Rec × Rec) × (Nat × Nat)) :=
  (blocksOf contacts).flatMap (fun b =>
    (allPairs b.2).map (fun p => ((p.1.2, p.2.2), (p.1.1, p.2.1))))

/-- Consecutive slices of size `n` (`range(0, len, n)` slicing). -/
def chunksOf (n : Nat) : List α → List (List α)
  | [] => []
  | x :: xs => (x :: xs.take (n - 1)) :: chunksOf n (xs.drop (n - 1))
termination_by l => l.length
decreasing_by
  simp only [List.length_cons, List.length_drop]
  omega

/-- One batch of the scanning loop: zip the decisions with the batch's index
pairs and keep, in order, `(contacts[i], contacts[j], confidence)` for every
decision with `should_merge` set and confidence at or above the threshold. -/
def processBatch (contacts : List Rec) (threshold : ℚ)
    (ds : List MatchDecision) (idxs : List (Nat × Nat)) :
    List (Rec × Rec × ℚ) :=
  (ds.zip idxs).filterMap (fun dij =>
    if dij.1.should_merge && decide (dij.1.confidence ≥ threshold) then
      some (contacts.getD dij.2.1 [], contacts.getD dij.2.2 [],
            dij.1.confidence)
    else none)

/-- `EntityResolutionPipeline.find_duplicates`.  `oracle` gives, per batch
of pairs, the outcome of the external call (see `should_merge`); `proceed`
is the interactive confirmation (`false` aborts and returns no pairs). -/
def find_duplicates
    (oracle : List (Rec × Rec) → Except String (List MatchDecision))
    (threshold : ℚ) (proceed : Bool) (contacts : List Rec) :
    List (Rec × Rec × ℚ) :=
  if proceed = false then []
  else
    (chunksOf batchSize (pairsToCompare contacts)).flatMap (fun batch =>
      let ds := normalizeDecisions
        (should_merge (batch.map Prod.fst) (oracle (batch.map Prod.fst)))
      processBatch contacts threshold ds (batch.map Prod.snd))

/-! ## Clustering (`_build_merge_groups`) -/

/-- Neighbor list of a node in the adjacency mapping (empty if absent). -/
def lookupAdj (adj : List (String × List String)) (k : String) :
    List String :=
  match adj.find? (fun kv => kv.1 == k) with
  | some kv => kv.2
  | none => []

/-- `if k not in adj: adj[k] = []`. -/
def ensureKey (adj : List (String × List String)) (k : String) :
    List (String × List String) :=
  if (adj.map Prod.fst).contains k then adj else adj ++ [(k, [])]

/-- `adj[k].append(v)`. -/
def appendNbr (adj : List (String × List String)) (k v : String) :
    List (String × List String) :=
  adj.map (fun kv => if kv.1 = k then (kv.1, kv.2 ++ [v]) else kv)

/-- Process one duplicate pair into the adjacency mapping. -/
def addEdge (adj : List (String × List String)) (a b : String) :
    List (String × List String) :=
  appendNbr (appendNbr (ensureKey (ensureKey adj a) b) a b) b a

/-- The adjacency mapping built from the duplicate pairs. -/
def buildAdj (pairs : List (Rec × Rec × ℚ)) :
    List (String × List String) :=
  pairs.foldl (fun adj t => addEdge adj (recId t.1) (recId t.2.1)) []

/-- `m[k] = v` on an insertion-ordered mapping. -/
def setKey (m : List (String × Rec)) (k : String) (v : Rec) :
    List (String × Rec) :=
  if (m.map Prod.fst).contains k then
    m.map (fun kv => if kv.1 = k then (kv.1, v) else kv)
  else m ++ [(k, v)]

/-- The `id_map` built from the duplicate pairs (later records with the same
id overwrite earlier ones). -/
def buildIdMap (pairs : List (Rec × Rec × ℚ)) : List (String × Rec) :=
  pairs.foldl (fun m t => setKey (setKey m (recId t.1) t.1) (recId t.2.1) t.2.1) []

/-- `id_map[x]` (the empty record if absent; never hit on visited nodes). -/
def idLookup (m : List (String × Rec)) (x : String) : Rec :=
  ((m.find? (fun kv => kv.1 == x)).map Prod.snd).getD []

/-- The not-yet-visited neighbors of a popped node, in adjacency order, with
the interleaved visited-set update (`if neighbor not in visited:
visited.add(neighbor); stack.append(neighbor)`), so duplicates inside one
neighbor list are kept once. -/
def newNeighbors (visited : List String) : List String → List String
  | [] => []
  | n :: rest =>
      if n ∈ visited then newNeighbors visited rest
      else n :: newNeighbors (visited ++ [n]) rest

/-- All node names occurring in the adjacency mapping (keys and neighbor
values), deduplicated; the universe for the traversal's termination
measure. -/
def allNodes (adj : List (String × List String)) : List String :=
  (adj.map Prod.fst ++ (adj.map Prod.snd).flatten).dedup

/-- The iterative stack-based traversal of `_build_merge_groups`: pop a
node, append it to the component, push its unvisited neighbors (marking them
visited).  The head of `stack` is the top (the last element of the Python
list).  Returns the component (in pop order) and the final visited set. -/
def dfs (adj : List (String × List String)) :
    List String → List String → List String → List String × List String
  | [], visited, comp => (comp, visited)
  | node :: rest, visited, comp =>
      let nbrs := newNeighbors visited (lookupAdj adj node)
      dfs adj (nbrs.reverse ++ rest) (visited ++ nbrs) (comp ++ [node])
termination_by stack visited _ =>
  2 * ((allNodes adj).toFinset \ visited.toFinset).card + stack.length
decreasing_by
  simp only [List.length_append, List.length_reverse, List.length_cons]
  have memnn : ∀ (v ns : List String) (x : String),
      x ∈ newNeighbors v ns ↔ x ∈ ns ∧ x ∉ v := by
    intro v ns
    induction ns generalizing v with
    | nil => simp [newNeighbors]
    | cons n rest ih =>
        intro x
        by_cases hn : n ∈ v
        · simp only [newNeighbors, if_pos hn, ih, List.mem_cons]
          constructor
          · rintro ⟨h1, h2⟩; exact ⟨Or.inr h1, h2⟩
          · rintro ⟨h1 | h1, h2⟩
            · exact absurd hn (h1 ▸ h2)
            · exact ⟨h1, h2⟩
        · simp only [newNeighbors, if_neg hn, List.mem_cons, ih,
            List.mem_append, List.mem_singleton]
          constructor
          · rintro (rfl | ⟨h1, h2⟩)
            · exact ⟨Or.inl rfl, hn⟩
            · exact ⟨Or.inr h1, fun hx => h2 (Or.inl hx)⟩
          · rintro ⟨rfl | h1, h2⟩
            · exact Or.inl rfl
            · by_cases hxn : x = n
              · exact Or.inl hxn
              · exact Or.inr ⟨h1, fun hx =>
                  hx.elim h2 (fun h => hxn (by simpa using h))⟩
  have nodupnn : ∀ (v ns : List String), (newNeighbors v ns).Nodup := by
    intro v ns
    induction ns generalizing v with
    | nil => simp [newNeighbors]
    | cons n rest ih =>
        by_cases hn : n ∈ v
        · simpa [newNeighbors, if_pos hn] using ih v
        · simp only [newNeighbors, if_neg hn]
          refine List.Nodup.cons ?_ (ih (v ++ [n]))
          intro hmem
          rcases (memnn _ _ _).1 hmem with ⟨-, habs⟩
          exact habs (by simp)
  have lookup_sub : ∀ x, x ∈ lookupAdj adj node → x ∈ allNodes adj := by
    intro x hx
    unfold lookupAdj at hx
    unfold allNodes
    rw [List.mem_dedup, List.mem_append]
    cases hfind : adj.find? (fun kv => kv.1 == node) with
    | none => rw [hfind] at hx; simp at hx
    | some kv =>
        rw [hfind] at hx
        refine Or.inr ?_
        rw [List.mem_flatten]
        exact ⟨kv.2, List.mem_map_of_mem Prod.snd
          (List.mem_of_find?_eq_some hfind), hx⟩
  set nbrs := newNeighbors visited (lookupAdj adj node)
  have hsub : nbrs.toFinset ⊆ (allNodes adj).toFinset \ visited.toFinset := by
    intro x hx
    rw [List.mem_toFinset] at hx
    rcases (memnn _ _ _).1 hx with ⟨hin, hout⟩
    rw [Finset.mem_sdiff, List.mem_toFinset, List.mem_toFinset]
    exact ⟨lookup_sub _ hin, hout⟩
  have hdisj : Disjoint ((allNodes adj).toFinset \ (visited ++ nbrs).toFinset)
      nbrs.toFinset := by
    rw [Finset.disjoint_right]
    intro x hx
    rw [Finset.mem_sdiff, List.toFinset_append, Finset.mem_union]
    rw [List.mem_toFinset] at hx
    intro h
    exact h.2 (Or.inr (by rwa [List.mem_toFinset]))
  have hunion : ((allNodes adj).toFinset \ (visited ++ nbrs).toFinset) ∪
      nbrs.toFinset ⊆ (allNodes adj).toFinset \ visited.toFinset := by
    refine Finset.union_subset ?_ hsub
    refine Finset.sdiff_subset_sdiff (le_refl _) ?_
    rw [List.toFinset_append]
    exact Finset.subset_union_left
  have hcard := Finset.card_le_card hunion
  rw [Finset.card_union_of_disjoint hdisj] at hcard
  have hlen : nbrs.toFinset.card = nbrs.length :=
    List.toFinset_card_of_nodup (nodupnn _ _)
  omega

/-- The outer loop of `_build_merge_groups`: walk the adjacency keys in
insertion order, start a traversal at every not-yet-visited key, and collect
the components (as id lists). -/
def buildGroupsAux (adj : List (String × List String)) :
    List String → List String → List (List String) → List (List String)
  | [], _, groups => groups
  | uid :: rest, visited, groups =>
      if uid ∈ visited then buildGroupsAux adj rest visited groups
      else
        let r := dfs adj [uid] (visited ++ [uid]) []
        buildGroupsAux adj rest r.2 (groups ++ [r.1])

/-- The connected components of the duplicate-pair graph, as id lists. -/
def idComponents (pairs : List (Rec × Rec × ℚ)) : List (List String) :=
  let adj := buildAdj pairs
  buildGroupsAux adj (adj.map Prod.fst) [] []

/-- `EntityResolutionPipeline._build_merge_groups`: the components with each
id replaced by its `id_map` record. -/
def build_merge_groups (pairs : List (Rec × Rec × ℚ)) : List (List Rec) :=
  (idComponents pairs).map (fun comp =>
    comp.map (fun x => idLookup (buildIdMap pairs) x))

/-! ## Orchestrator (`deduplicate`) -/

/-- The run statistics emitted by `deduplicate`. -/
structure Stats where
  original_count : Nat
  duplicate_pairs_found : Nat
  merge_groups : Nat
  final_count : Nat
  reduction : Int
  processing_time : String
deriving DecidableEq

/-- Merge every group in order, threading the strategy's `merge_history`;
an error raised by `merge_entities` propagates. -/
def mergeGroups (groups : List (List Rec)) (ts : String) :
    Except String (List MergedEntity × List MergedEntity) :=
  groups.foldlM (fun acc g => do
    let r := merge_entities acc.2 g none ts
    let m ← r.1
    pure (acc.1 ++ [m], r.2)) ([], [])

/-- `EntityResolutionPipeline.deduplicate`.  Output elements are either
merged entities (`Sum.inl`, the source's `merged.to_dict()` entries) or
untouched singleton records (`Sum.inr`).  `ts` is the merge timestamp and
`ptime` the measured wall-clock duration string. -/
def deduplicate
    (oracle : List (Rec × Rec) → Except String (List MatchDecision))
    (threshold : ℚ) (proceed : Bool) (contacts : List Rec)
    (ts ptime : String) :
    Except String (List (MergedEntity ⊕ Rec) × Stats) := do
  let duplicate_pairs := find_duplicates oracle threshold proceed contacts
  let merge_groups := build_merge_groups duplicate_pairs
  let r ← mergeGroups merge_groups ts
  let merged_entities := r.1
  let merged_ids := merge_groups.flatMap (fun g => g.map recId)
  let unique_contacts :=
    contacts.filter (fun c => !(merged_ids.contains (recId c)))
  let stats : Stats :=
    ⟨contacts.length, duplicate_pairs.length, merge_groups.length,
     merged_entities.length + unique_contacts.length,
     (contacts.length : Int) -
       ((merged_entities.length : Int) + (unique_contacts.length : Int)),
     ptime⟩
  pure (merged_entities.map Sum.inl ++ unique_contacts.map Sum.inr, stats)

/-! ## Specification-side definitions

Definitions below restate selection and acceptance policies in the spec's
words, to be compared with the implementation, and introduce the graph
vocabulary (appearance, edges, reachability) used to characterize the
clustering. -/

/-- The spec's canonical-name selection policy: the first collected name
variant containing no literal period; if every variant contains one, the
first variant; if there are no variants, the placeholder. -/
def canonicalNamePolicy (vars : List Prov) : String :=
  match vars.find? (fun v => !(strContains v.value '.')) with
  | some v => v.value
  | none =>
      match vars with
      | [] => "Unknown"
      | v0 :: _ => v0.value

/-- Lookup of a field bucket in an insertion-ordered mapping. -/
def lookupField (m : List (String × List OProv)) (k : String) :
    Option (List OProv) :=
  (m.find? (fun kv => kv.1 == k)).map Prod.snd

/-- All non-empty occurrences of a field across a group, in group order,
each tagged with its source label and originating record id (no
deduplication). -/
def otherOccurrences (f : String) (entities : List Rec) : List OProv :=
  entities.flatMap (fun e => e.filterMap (fun kv =>
    if kv.1 = f ∧ kv.2 ≠ "" then
      some ⟨kv.2, Rec.getD e "source" "unknown", Rec.getD e "id" "unknown"⟩
    else none))

/-- Occurrences of a field across a group as accumulated by
`collectByField`: like `otherOccurrences` but dropping excluded fields. -/
def fieldOccurrences (exclude : List String) (f : String)
    (entities : List Rec) : List OProv :=
  entities.flatMap (fun e => e.filterMap (fun kv =>
    if kv.1 = f ∧ kv.1 ∉ exclude ∧ kv.2 ≠ "" then
      some ⟨kv.2, Rec.getD e "source" "unknown", Rec.getD e "id" "unknown"⟩
    else none))

/-- The spec's acceptance rule for a scanned pair:
`should_merge == true AND confidence >= threshold`. -/
def acceptedBySpec (threshold : ℚ) (d : MatchDecision) : Bool :=
  d.should_merge && decide (d.confidence ≥ threshold)

/-- An id appears in the accepted-pair list. -/
def appearsIn (pairs : List (Rec × Rec × ℚ)) (x : String) : Prop :=
  ∃ t ∈ pairs, recId t.1 = x ∨ recId t.2.1 = x

/-- The undirected edge relation of the match graph: some accepted pair
joins the two ids (in either orientation). -/
def EdgeP (pairs : List (Rec × Rec × ℚ)) (x y : String) : Prop :=
  ∃ t ∈ pairs, (recId t.1 = x ∧ recId t.2.1 = y) ∨
    (recId t.1 = y ∧ recId t.2.1 = x)

/-- Reachability in the match graph (transitive closure of `EdgeP`). -/
def ReachP (pairs : List (Rec × Rec × ℚ)) : String → String → Prop :=
  Relation.ReflTransGen (EdgeP pairs)

/-- The record-level edge relation used internally: `y` occurs in the
adjacency list of `x`. -/
def EdgeA (adj : List (String × List String)) (x y : String) : Prop :=
  y ∈ lookupAdj adj x

/-- Reachability over an adjacency mapping. -/
def ReachA (adj : List (String × List String)) : String → String → Prop :=
  Relation.ReflTransGen (EdgeA adj)

/-- A merge group contains a record with the given id. -/
def inGroupId (g : List Rec) (x : String) : Prop :=
  ∃ r ∈ g, recId r = x

/-- Two ids land in a common merge group of the clustering output. -/
def sameGroupIds (pairs : List (Rec × Rec × ℚ)) (a b : String) : Prop :=
  ∃ g ∈ build_merge_groups pairs, inGroupId g a ∧ inGroupId g b

/-- All records occurring in the accepted pairs. -/
def pairRecords (pairs : List (Rec × Rec × ℚ)) : List Rec :=
  pairs.flatMap (fun t => [t.1, t.2.1])

/-! ## Helper lemmas -/

theorem mem_newNeighbors {visited ns : List String} {x : String} :
    x ∈ newNeighbors visited ns ↔ x ∈ ns ∧ x ∉ visited := by
  induction ns generalizing visited with
  | nil => simp [newNeighbors]
  | cons n rest ih =>
      by_cases hn : n ∈ visited
      · simp only [newNeighbors, if_pos hn, ih, List.mem_cons]
        constructor
        · rintro ⟨h1, h2⟩; exact ⟨Or.inr h1, h2⟩
        · rintro ⟨h1 | h1, h2⟩
          · exact absurd hn (h1 ▸ h2)
          · exact ⟨h1, h2⟩
      · simp only [newNeighbors, if_neg hn, List.mem_cons, ih,
          List.mem_append, List.mem_singleton]
        constructor
        · rintro (rfl | ⟨h1, h2⟩)
          · exact ⟨Or.inl rfl, hn⟩
          · exact ⟨Or.inr h1, fun hx => h2 (Or.inl hx)⟩
        · rintro ⟨rfl | h1, h2⟩
          · exact Or.inl rfl
          · by_cases hxn : x = n
            · exact Or.inl hxn
            · exact Or.inr ⟨h1, fun hx =>
                hx.elim h2 (fun h => hxn (by simpa using h))⟩

theorem head?_filter {α : Type _} (p : α → Bool) (l : List α) :
    (l.filter p).head? = l.find? p := by
  induction l with
  | nil => rfl
  | cons x xs ih =>
      by_cases hx : p x
      · simp [List.filter_cons, List.find?_cons, hx]
      · simp only [Bool.not_eq_true] at hx
        simp [List.filter_cons, List.find?_cons, hx, ih]

theorem filterMap_if {α β : Type _} (p : α → Bool) (f : α → β) (l : List α) :
    l.filterMap (fun x => if p x then some (f x) else none) =
      (l.filter p).map f := by
  induction l with
  | nil => rfl
  | cons x xs ih =>
      by_cases hx : p x
      · simp [List.filterMap_cons, List.filter_cons, hx, ih]
      · simp only [Bool.not_eq_true] at hx
        simp [List.filterMap_cons, List.filter_cons, hx, ih]

/-! ## C1: lossless `source_records` -/

/-- C1: for every non-empty merge group, `merge_entities` returns a
`MergedEntity` whose `source_records` is exactly the input list: no record
dropped, none duplicated, verbatim copies in group order. -/
theorem merge_source_records_verbatim (hist : List MergedEntity)
    (entities : List Rec) (pid : Option String) (ts : String)
    (h : entities ≠ []) :
    ∃ m hist2, merge_entities hist entities pid ts = (.ok m, hist2) ∧
      m.source_records = entities := by
  match entities with
  | [] => exact absurd rfl h
  | e0 :: rest => exact ⟨_, _, rfl, rfl⟩

theorem merge_source_records_verbatim_witness :
    ∃ m hist2,
      merge_entities [] [[("id", "a"), ("full_name", "Ann")], [("id", "b")]]
        none "t" = (.ok m, hist2) ∧
      m.source_records = [[("id", "a"), ("full_name", "Ann")], [("id", "b")]] :=
  merge_source_records_verbatim [] _ none "t" (by decide)

/-! ## C9: empty-group error behavior -/

/-- C9: `merge_entities` raises the empty-group error exactly when given
zero records, leaving `merge_history` unchanged in that case; on any group
with at least one record it returns normally, appending the result to the
history. -/
theorem merge_empty_group_error (hist : List MergedEntity)
    (entities : List Rec) (pid : Option String) (ts : String) :
    (entities = [] ↔
      merge_entities hist entities pid ts = (.error emptyGroupMsg, hist)) ∧
    (entities ≠ [] →
      ∃ m, merge_entities hist entities pid ts = (.ok m, hist ++ [m])) := by
  constructor
  · constructor
    · rintro rfl; rfl
    · intro h
      match entities with
      | [] => rfl
      | e0 :: rest => simp [merge_entities] at h
  · intro h
    match entities with
    | [] => exact absurd rfl h
    | e0 :: rest => exact ⟨_, rfl⟩

theorem merge_empty_group_error_witness :
    (([] : List Rec) = [] ↔
      merge_entities [] [] none "t" = (.error emptyGroupMsg, [])) ∧
    (([[("id", "a")]] : List Rec) ≠ [] →
      ∃ m, merge_entities [] [[("id", "a")]] none "t" = (.ok m, [] ++ [m])) :=
  ⟨(merge_empty_group_error [] [] none "t").1,
   (merge_empty_group_error [] [[("id", "a")]] none "t").2⟩

/-! ## C3 and C4: adapter decision counts -/

/-- C3 counterexample: a request for two pairs whose parsed response
contains a single entry yields one decision, not one per input pair. -/
theorem should_merge_count_mismatch :
    (normalizeDecisions (should_merge
        [([("id", "a")], [("id", "b")]), ([("id", "c")], [("id", "d")])]
        (.ok [⟨true, 1, "match", [], []⟩]))).length = 1 ∧
    ([([("id", "a")], [("id", "b")]), ([("id", "c")], [("id", "d")])] :
        List (Rec × Rec)).length = 2 := by
  exact ⟨rfl, rfl⟩

/-- C3 (amended): on the failure path `should_merge` returns exactly one
decision per input pair; on the success path it returns the parsed response
entries as-is, in response order, so the count matches the input pairs only
when the response contains as many entries as pairs were requested. -/
theorem should_merge_decision_counts (pairs : List (Rec × Rec))
    (e : String) (ds : List MatchDecision) :
    normalizeDecisions (should_merge pairs (.ok ds)) = ds ∧
    normalizeDecisions (should_merge pairs (.error e)) =
      List.replicate pairs.length (errorDecision e) := by
  constructor
  · match ds with
    | [] => rfl
    | [d] => rfl
    | d1 :: d2 :: rest => rfl
  · by_cases h : pairs.length = 1
    · simp [should_merge, normalizeDecisions, h]
    · simp [should_merge, normalizeDecisions, h]

/-- C4: on any failure of the oracle call or of response parsing, the
adapter returns exactly one decision per requested pair, each with
`should_merge = false`, `confidence = 0.0` and the error detail as the
reasoning, and never raises to the caller. -/
theorem should_merge_error_degrades (pairs : List (Rec × Rec)) (e : String) :
    normalizeDecisions (should_merge pairs (.error e)) =
      List.replicate pairs.length ⟨false, 0, "Error: " ++ e, [], []⟩ ∧
    (normalizeDecisions (should_merge pairs (.error e))).length =
      pairs.length ∧
    ∀ d ∈ normalizeDecisions (should_merge pairs (.error e)),
      d.should_merge = false ∧ d.confidence = 0 ∧
        d.reasoning = "Error: " ++ e := by
  have hrep : normalizeDecisions (should_merge pairs (.error e)) =
      List.replicate pairs.length (errorDecision e) := by
    by_cases h : pairs.length = 1
    · simp [should_merge, normalizeDecisions, h]
    · simp [should_merge, normalizeDecisions, h]
  refine ⟨hrep, by rw [hrep, List.length_replicate], ?_⟩
  intro d hd
  rw [hrep] at hd
  rw [List.eq_of_mem_replicate hd]
  exact ⟨rfl, rfl, rfl⟩

/-! ## C6: acceptance rule of the scanner -/

/-- C6: within the scanning loop a pair is emitted as an accepted duplicate
exactly when its decision has `should_merge` set and confidence at or above
the pipeline's `confidence_threshold` (default 0.7): the emitted list is
precisely the accepted sub-list, order-preserved, as
`(contacts[i], contacts[j], confidence)` triples. -/
theorem scanner_accepts_iff (contacts : List Rec) (threshold : ℚ)
    (ds : List MatchDecision) (idxs : List (Nat × Nat)) :
    processBatch contacts threshold ds idxs =
      ((ds.zip idxs).filter (fun dij => acceptedBySpec threshold dij.1)).map
        (fun dij => (contacts.getD dij.2.1 [], contacts.getD dij.2.2 [],
          dij.1.confidence)) ∧
    defaultConfidenceThreshold = 7 / 10 := by
  constructor
  · exact filterMap_if
      (fun (dij : MatchDecision × (Nat × Nat)) => acceptedBySpec threshold dij.1)
      (fun dij => (contacts.getD dij.2.1 [], contacts.getD dij.2.2 [],
        dij.1.confidence))
      (ds.zip idxs)
  · norm_num [defaultConfidenceThreshold]

/-! ## C7: canonical-name selection -/

/-- C7: for every merge group the canonical name follows the policy: the
first collected name variant with no literal period; failing that the first
collected variant; failing any variants, the placeholder. -/
theorem canonical_name_policy (hist : List MergedEntity)
    (entities : List Rec) (pid : Option String) (ts : String)
    (h : entities ≠ []) :
    ∃ m hist2, merge_entities hist entities pid ts = (.ok m, hist2) ∧
      m.canonical_name = canonicalNamePolicy (collect_field_variations
        entities ["full_name", "first_name", "last_name"]) := by
  have hval : ∀ vars : List Prov,
      choose_canonical_value vars = canonicalNamePolicy vars := by
    intro vars
    unfold choose_canonical_value canonicalNamePolicy
    match vars with
    | [] => rfl
    | v0 :: rest =>
        rw [← head?_filter]
        cases hf : (v0 :: rest).filter (fun v => !(strContains v.value '.')) with
        | nil => rfl
        | cons f fs => rfl
  match entities with
  | [] => exact absurd rfl h
  | e0 :: rest => exact ⟨_, _, rfl, hval _⟩

theorem canonical_name_policy_witness :
    (∃ m hist2,
      merge_entities [] [[("full_name", "S. Chen")], [("full_name", "Sarah Chen")]]
        none "t" = (.ok m, hist2) ∧
      m.canonical_name = canonicalNamePolicy (collect_field_variations
        [[("full_name", "S. Chen")], [("full_name", "Sarah Chen")]]
        ["full_name", "first_name", "last_name"])) ∧
    canonicalNamePolicy (collect_field_variations
      [[("full_name", "S. Chen")], [("full_name", "Sarah Chen")]]
      ["full_name", "first_name", "last_name"]) = "Sarah Chen" ∧
    canonicalNamePolicy (collect_field_variations [[("full_name", "S. Chen")]]
      ["full_name", "first_name", "last_name"]) = "S. Chen" :=
  ⟨canonical_name_policy [] _ none "t" (by decide), by decide, by decide⟩

/-! ## C5: `other_fields` bucketing -/

theorem find?_key_map_append (m : List (String × List OProv)) (k : String)
    (p : OProv) (f : String) :
    List.find? (fun kv => kv.1 == f)
        (m.map (fun kv => if kv.1 = k then (kv.1, kv.2 ++ [p]) else kv)) =
      (List.find? (fun kv => kv.1 == f) m).map
        (fun kv => if kv.1 = k then (kv.1, kv.2 ++ [p]) else kv) := by
  induction m with
  | nil => rfl
  | cons kv0 rest ih =>
      have hkey : ((if kv0.1 = k then (kv0.1, kv0.2 ++ [p]) else kv0).1 == f)
          = (kv0.1 == f) := by
        by_cases h : kv0.1 = k <;> simp [h]
      rw [List.map_cons]
      by_cases hbf : (kv0.1 == f) = true
      · have h1 : ((if kv0.1 = k then (kv0.1, kv0.2 ++ [p]) else kv0).1 == f)
            = true := by rw [hkey]; exact hbf
        rw [@List.find?_cons_of_pos _ (fun kv => kv.1 == f) _
              (rest.map (fun kv => if kv.1 = k then (kv.1, kv.2 ++ [p]) else kv))
              h1,
            @List.find?_cons_of_pos _ (fun kv => kv.1 == f) kv0 rest hbf]
        rfl
      · have h1 : ¬ ((if kv0.1 = k then (kv0.1, kv0.2 ++ [p]) else kv0).1 == f)
            = true := by rw [hkey]; exact hbf
        rw [@List.find?_cons_of_neg _ (fun kv => kv.1 == f) _
              (rest.map (fun kv => if kv.1 = k then (kv.1, kv.2 ++ [p]) else kv))
              h1,
            @List.find?_cons_of_neg _ (fun kv => kv.1 == f) kv0 rest hbf, ih]

theorem lookupField_map_append (m : List (String × List OProv)) (k : String)
    (p : OProv) (f : String) :
    lookupField
        (m.map (fun kv => if kv.1 = k then (kv.1, kv.2 ++ [p]) else kv)) f =
      if f = k then (lookupField m f).map (fun l => l ++ [p])
      else lookupField m f := by
  unfold lookupField
  rw [find?_key_map_append]
  cases hfind : List.find? (fun kv => kv.1 == f) m with
  | none => by_cases hk : f = k <;> simp [hk]
  | some kv =>
      have hkvf : kv.1 = f := by simpa using List.find?_some hfind
      by_cases hk : f = k
      · have hkk : kv.1 = k := hkvf.trans hk
        simp [hkk, hk]
      · have hkk : ¬ kv.1 = k := fun hh => hk (hkvf.symm.trans hh)
        simp [hkk, hk]

theorem lookupField_append_single (m : List (String × List OProv))
    (k : String) (l : List OProv) (f : String) :
    lookupField (m ++ [(k, l)]) f =
      (lookupField m f).or (if f = k then some l else none) := by
  unfold lookupField
  rw [List.find?_append]
  cases List.find? (fun kv => kv.1 == f) m with
  | some kv => rfl
  | none =>
      by_cases hk : f = k
      · subst hk
        rw [@List.find?_cons_of_pos _ (fun kv => kv.1 == f) (f, l) [] (by simp)]
        simp
      · have hne : ¬ (((k, l) : String × List OProv).1 == f) = true := by
          simp only [beq_iff_eq]
          exact fun h => hk h.symm
        rw [@List.find?_cons_of_neg _ (fun kv => kv.1 == f) (k, l) [] hne]
        simp [hk]

theorem lookupField_isSome_of_mem {m : List (String × List OProv)}
    {k : String} (h : k ∈ m.map Prod.fst) : (lookupField m k).isSome := by
  induction m with
  | nil => simp at h
  | cons kv0 rest ih =>
      rw [List.map_cons, List.mem_cons] at h
      by_cases hb : (kv0.1 == k) = true
      · unfold lookupField
        rw [@List.find?_cons_of_pos _ (fun kv => kv.1 == k) kv0 rest hb]
        rfl
      · unfold lookupField
        rw [@List.find?_cons_of_neg _ (fun kv => kv.1 == k) kv0 rest hb]
        have hmem : k ∈ rest.map Prod.fst := by
          rcases h with h | h
          · exact absurd (by simp [h]) hb
          · exact h
        exact ih hmem

theorem lookupField_eq_none_of_not_mem {m : List (String × List OProv)}
    {k : String} (h : k ∉ m.map Prod.fst) : lookupField m k = none := by
  unfold lookupField
  rw [List.find?_eq_none.2]
  · rfl
  · intro kv hkv hbeq
    exact h (eq_of_beq hbeq ▸ List.mem_map_of_mem Prod.fst hkv)

theorem lookupField_addOther (m : List (String × List OProv)) (k : String)
    (p : OProv) (f : String) :
    lookupField (addOther m k p) f =
      if f = k then some ((lookupField m f).getD [] ++ [p])
      else lookupField m f := by
  unfold addOther
  by_cases hc : (m.map Prod.fst).contains k = true
  · rw [if_pos hc, lookupField_map_append]
    by_cases hk : f = k
    · rw [if_pos hk, if_pos hk]
      subst hk
      have hmem : f ∈ m.map Prod.fst := by
        rcases List.contains_iff_exists_mem_beq.1 hc with ⟨k1, hk1, hbeq⟩
        rwa [eq_of_beq hbeq]
      rcases Option.isSome_iff_exists.1 (lookupField_isSome_of_mem hmem)
        with ⟨l0, hl0⟩
      rw [hl0]
      rfl
    · rw [if_neg hk, if_neg hk]
  · rw [if_neg hc, lookupField_append_single]
    by_cases hk : f = k
    · subst hk
      have hnm : f ∉ m.map Prod.fst := fun hmem =>
        hc (List.contains_iff_exists_mem_beq.2 ⟨f, hmem, by simp⟩)
      rw [lookupField_eq_none_of_not_mem hnm]
      simp
    · rw [if_neg hk, if_neg hk, Option.or_none]

theorem collectByField_inner (excl : List String) (e : Rec)
    (efields : List (String × String)) :
    ∀ (m : List (String × List OProv)) (g : String → List OProv),
      (∀ f, lookupField m f = if g f = [] then none else some (g f)) →
      ∀ f,
        lookupField (efields.foldl (fun m2 kv =>
          if kv.1 ∈ excl ∨ kv.2 = "" then m2
          else addOther m2 kv.1
            ⟨kv.2, Rec.getD e "source" "unknown",
             Rec.getD e "id" "unknown"⟩) m) f =
        (if g f ++ (efields.filterMap (fun kv =>
            if kv.1 = f ∧ kv.1 ∉ excl ∧ kv.2 ≠ "" then
              some ⟨kv.2, Rec.getD e "source" "unknown",
                Rec.getD e "id" "unknown"⟩
            else none)) = [] then none
         else some (g f ++ (efields.filterMap (fun kv =>
            if kv.1 = f ∧ kv.1 ∉ excl ∧ kv.2 ≠ "" then
              some ⟨kv.2, Rec.getD e "source" "unknown",
                Rec.getD e "id" "unknown"⟩
            else none)))) := by
  induction efields with
  | nil =>
      intro m g hg f
      simpa using hg f
  | cons kv rest ih =>
      intro m g hg f
      by_cases hskip : kv.1 ∈ excl ∨ kv.2 = ""
      · have hocc : (if kv.1 = f ∧ kv.1 ∉ excl ∧ kv.2 ≠ "" then
            some (⟨kv.2, Rec.getD e "source" "unknown",
              Rec.getD e "id" "unknown"⟩ : OProv)
          else none) = none := by
          rw [if_neg]
          rintro ⟨-, hne, hnv⟩
          rcases hskip with h | h
          · exact hne h
          · exact hnv h
        simp only [List.foldl_cons, if_pos hskip]
        rw [@List.filterMap_cons_none _ _ (fun kv =>
          if kv.1 = f ∧ kv.1 ∉ excl ∧ kv.2 ≠ "" then
            some (⟨kv.2, Rec.getD e "source" "unknown",
              Rec.getD e "id" "unknown"⟩ : OProv)
          else none) kv rest hocc]
        exact ih m g hg f
      · push_neg at hskip
        have hskip2 : ¬ (kv.1 ∈ excl ∨ kv.2 = "") := by
          rintro (h | h)
          · exact hskip.1 h
          · exact hskip.2 h
        simp only [List.foldl_cons, if_neg hskip2]
        have hg2 : ∀ f2, lookupField (addOther m kv.1
            ⟨kv.2, Rec.getD e "source" "unknown",
             Rec.getD e "id" "unknown"⟩) f2 =
            (if (if f2 = kv.1 then g f2 ++
                  [⟨kv.2, Rec.getD e "source" "unknown",
                    Rec.getD e "id" "unknown"⟩] else g f2) = [] then none
             else some (if f2 = kv.1 then g f2 ++
                  [⟨kv.2, Rec.getD e "source" "unknown",
                    Rec.getD e "id" "unknown"⟩] else g f2)) := by
          intro f2
          rw [lookupField_addOther]
          by_cases hf2 : f2 = kv.1
          · rw [if_pos hf2, if_pos hf2, hg f2]
            by_cases hgf : g f2 = []
            · simp [hgf]
            · simp [hgf]
          · rw [if_neg hf2, if_neg hf2, hg f2]
        have hrec := ih (addOther m kv.1
            ⟨kv.2, Rec.getD e "source" "unknown",
             Rec.getD e "id" "unknown"⟩)
          (fun f2 => if f2 = kv.1 then g f2 ++
              [⟨kv.2, Rec.getD e "source" "unknown",
                Rec.getD e "id" "unknown"⟩] else g f2) hg2 f
        rw [hrec]
        by_cases hf : kv.1 = f
        · have hcond : kv.1 = f ∧ kv.1 ∉ excl ∧ kv.2 ≠ "" :=
            ⟨hf, hskip.1, hskip.2⟩
          have e1 : (if f = kv.1 then g f ++
              [(⟨kv.2, Rec.getD e "source" "unknown",
                Rec.getD e "id" "unknown"⟩ : OProv)] else g f) = g f ++
              [⟨kv.2, Rec.getD e "source" "unknown",
                Rec.getD e "id" "unknown"⟩] := if_pos hf.symm
          have e2 : (kv :: rest).filterMap (fun kv =>
              if kv.1 = f ∧ kv.1 ∉ excl ∧ kv.2 ≠ "" then
                some (⟨kv.2, Rec.getD e "source" "unknown",
                  Rec.getD e "id" "unknown"⟩ : OProv)
              else none) =
              ⟨kv.2, Rec.getD e "source" "unknown",
                Rec.getD e "id" "unknown"⟩ :: rest.filterMap (fun kv =>
              if kv.1 = f ∧ kv.1 ∉ excl ∧ kv.2 ≠ "" then
                some (⟨kv.2, Rec.getD e "source" "unknown",
                  Rec.getD e "id" "unknown"⟩ : OProv)
              else none) :=
            List.filterMap_cons_some (by exact if_pos hcond)
          rw [e1, e2]
          simp [List.append_assoc]
        · have hcond : ¬ (kv.1 = f ∧ kv.1 ∉ excl ∧ kv.2 ≠ "") := by
            rintro ⟨h, -, -⟩
            exact hf h
          have e1 : (if f = kv.1 then g f ++
              [(⟨kv.2, Rec.getD e "source" "unknown",
                Rec.getD e "id" "unknown"⟩ : OProv)] else g f) = g f :=
            if_neg (fun h => hf h.symm)
          have e2 : (kv :: rest).filterMap (fun kv =>
              if kv.1 = f ∧ kv.1 ∉ excl ∧ kv.2 ≠ "" then
                some (⟨kv.2, Rec.getD e "source" "unknown",
                  Rec.getD e "id" "unknown"⟩ : OProv)
              else none) = rest.filterMap (fun kv =>
              if kv.1 = f ∧ kv.1 ∉ excl ∧ kv.2 ≠ "" then
                some (⟨kv.2, Rec.getD e "source" "unknown",
                  Rec.getD e "id" "unknown"⟩ : OProv)
              else none) :=
            List.filterMap_cons_none (by exact if_neg hcond)
          rw [e1, e2]

theorem collectByField_lookup (entities : List Rec) (excl : List String)
    (f : String) :
    lookupField (collectByField entities excl) f =
      if fieldOccurrences excl f entities = [] then none
      else some (fieldOccurrences excl f entities) := by
  suffices h : ∀ (m : List (String × List OProv)) (g : String → List OProv),
      (∀ f2, lookupField m f2 = if g f2 = [] then none else some (g f2)) →
      ∀ f2, lookupField (entities.foldl (fun m e =>
          e.foldl (fun m2 kv =>
            if kv.1 ∈ excl ∨ kv.2 = "" then m2
            else addOther m2 kv.1
              ⟨kv.2, Rec.getD e "source" "unknown",
               Rec.getD e "id" "unknown"⟩) m) m) f2 =
        (if g f2 ++ fieldOccurrences excl f2 entities = [] then none
         else some (g f2 ++ fieldOccurrences excl f2 entities)) by
    have hres := h [] (fun _ => []) (by intro f2; rfl) f
    simpa [collectByField] using hres
  induction entities with
  | nil =>
      intro m g hg f2
      simpa [fieldOccurrences] using hg f2
  | cons e rest ih =>
      intro m g hg f2
      simp only [List.foldl_cons]
      have hinner := collectByField_inner excl e e m g hg
      have hrec := ih (e.foldl (fun m2 kv =>
          if kv.1 ∈ excl ∨ kv.2 = "" then m2
          else addOther m2 kv.1
            ⟨kv.2, Rec.getD e "source" "unknown",
             Rec.getD e "id" "unknown"⟩) m)
        (fun f3 => g f3 ++ (e.filterMap (fun kv =>
          if kv.1 = f3 ∧ kv.1 ∉ excl ∧ kv.2 ≠ "" then
            some ⟨kv.2, Rec.getD e "source" "unknown",
              Rec.getD e "id" "unknown"⟩
          else none))) hinner f2
      rw [hrec]
      have hexp : fieldOccurrences excl f2 (e :: rest) =
          List.filterMap (fun kv =>
            if kv.1 = f2 ∧ kv.1 ∉ excl ∧ kv.2 ≠ "" then
              some (⟨kv.2, Rec.getD e "source" "unknown",
                Rec.getD e "id" "unknown"⟩ : OProv)
            else none) e ++ fieldOccurrences excl f2 rest := by
        exact List.flatMap_cons _ _ _
      rw [hexp, List.append_assoc]

/-- C5 counterexample: two records sharing the exact same `linkedin` value
produce two `other_fields` entries (duplicates are kept), while the
explicit-bucket collector applied to the same data deduplicates. -/
theorem other_fields_duplicate_kept :
    collect_other_fields
        [[("id", "1"), ("linkedin", "x")], [("id", "2"), ("linkedin", "x")]]
        excludeList =
      [("linkedin", [⟨"x", "unknown", "1"⟩, ⟨"x", "unknown", "2"⟩])] ∧
    collect_field_variations
        [[("id", "1"), ("linkedin", "x")], [("id", "2"), ("linkedin", "x")]]
        ["linkedin"] =
      [⟨"x", "linkedin", "unknown", "1"⟩] := by
  exact ⟨by decide, by decide⟩

/-- C5 (amended): every field outside the five tracked buckets and outside
`id`/`source` is collected into `other_fields` under its field name, keeping
every non-empty occurrence in group order — without the
dedup-by-exact-value rule of the five explicit buckets — each occurrence
tagged with its source label and originating record id. -/
theorem other_fields_all_occurrences (entities : List Rec) (f : String) :
    lookupField (collect_other_fields entities excludeList) f =
      if f ∈ excludeList ∨ otherOccurrences f entities = [] then none
      else some (otherOccurrences f entities) := by
  rw [collect_other_fields, collectByField_lookup]
  by_cases hex : f ∈ excludeList
  · have hempty : fieldOccurrences excludeList f entities = [] := by
      unfold fieldOccurrences
      rw [List.flatMap_eq_nil_iff]
      intro e he
      rw [List.filterMap_eq_nil_iff]
      intro kv hkv
      rw [if_neg]
      rintro ⟨h1, h2, -⟩
      exact h2 (h1 ▸ hex)
    simp [hempty, hex]
  · have hsame : fieldOccurrences excludeList f entities =
        otherOccurrences f entities := by
      unfold fieldOccurrences otherOccurrences
      refine congrArg (List.flatMap entities) (funext fun e => ?_)
      refine congrArg (fun fn => List.filterMap fn e) (funext fun kv => ?_)
      by_cases h1 : kv.1 = f
      · subst h1
        by_cases h2 : kv.2 = ""
        · simp [h2]
        · simp [h2, hex]
      · simp [h1]
    rw [hsame]
    simp [hex]

/-! ## Generic association-list lemmas -/

theorem assoc_find?_map_appendVal {β : Type _} (m : List (String × List β))
    (k f : String) (v : β) :
    (m.map (fun kv => if kv.1 = k then (kv.1, kv.2 ++ [v]) else kv)).find?
        (fun kv => kv.1 == f) =
      (m.find? (fun kv => kv.1 == f)).map
        (fun kv => if kv.1 = k then (kv.1, kv.2 ++ [v]) else kv) := by
  induction m with
  | nil => rfl
  | cons kv0 rest ih =>
      have hkey : ((if kv0.1 = k then (kv0.1, kv0.2 ++ [v]) else kv0).1 == f)
          = (kv0.1 == f) := by
        by_cases h : kv0.1 = k <;> simp [h]
      rw [List.map_cons]
      by_cases hbf : (kv0.1 == f) = true
      · have h1 : ((if kv0.1 = k then (kv0.1, kv0.2 ++ [v]) else kv0).1 == f)
            = true := by rw [hkey]; exact hbf
        rw [@List.find?_cons_of_pos _ (fun kv => kv.1 == f) _
              (rest.map (fun kv =>
                if kv.1 = k then (kv.1, kv.2 ++ [v]) else kv)) h1,
            @List.find?_cons_of_pos _ (fun kv => kv.1 == f) kv0 rest hbf]
        rfl
      · have h1 : ¬ ((if kv0.1 = k then (kv0.1, kv0.2 ++ [v]) else kv0).1 == f)
            = true := by rw [hkey]; exact hbf
        rw [@List.find?_cons_of_neg _ (fun kv => kv.1 == f) _
              (rest.map (fun kv =>
                if kv.1 = k then (kv.1, kv.2 ++ [v]) else kv)) h1,
            @List.find?_cons_of_neg _ (fun kv => kv.1 == f) kv0 rest hbf, ih]

theorem assoc_find?_map_setVal {β : Type _} (m : List (String × β))
    (k f : String) (v : β) :
    (m.map (fun kv => if kv.1 = k then (kv.1, v) else kv)).find?
        (fun kv => kv.1 == f) =
      (m.find? (fun kv => kv.1 == f)).map
        (fun kv => if kv.1 = k then (kv.1, v) else kv) := by
  induction m with
  | nil => rfl
  | cons kv0 rest ih =>
      have hkey : ((if kv0.1 = k then (kv0.1, v) else kv0).1 == f)
          = (kv0.1 == f) := by
        by_cases h : kv0.1 = k <;> simp [h]
      rw [List.map_cons]
      by_cases hbf : (kv0.1 == f) = true
      · have h1 : ((if kv0.1 = k then (kv0.1, v) else kv0).1 == f)
            = true := by rw [hkey]; exact hbf
        rw [@List.find?_cons_of_pos _ (fun kv => kv.1 == f) _
              (rest.map (fun kv => if kv.1 = k then (kv.1, v) else kv)) h1,
            @List.find?_cons_of_pos _ (fun kv => kv.1 == f) kv0 rest hbf]
        rfl
      · have h1 : ¬ ((if kv0.1 = k then (kv0.1, v) else kv0).1 == f)
            = true := by rw [hkey]; exact hbf
        rw [@List.find?_cons_of_neg _ (fun kv => kv.1 == f) _
              (rest.map (fun kv => if kv.1 = k then (kv.1, v) else kv)) h1,
            @List.find?_cons_of_neg _ (fun kv => kv.1 == f) kv0 rest hbf, ih]

theorem assoc_find?_isSome_of_mem {β : Type _} {m : List (String × β)}
    {k : String} (h : k ∈ m.map Prod.fst) :
    (m.find? (fun kv => kv.1 == k)).isSome := by
  induction m with
  | nil => simp at h
  | cons kv0 rest ih =>
      rw [List.map_cons, List.mem_cons] at h
      by_cases hb : (kv0.1 == k) = true
      · rw [@List.find?_cons_of_pos _ (fun kv => kv.1 == k) kv0 rest hb]
        rfl
      · rw [@List.find?_cons_of_neg _ (fun kv => kv.1 == k) kv0 rest hb]
        have hmem : k ∈ rest.map Prod.fst := by
          rcases h with h | h
          · exact absurd (by simp [h]) hb
          · exact h
        exact ih hmem

theorem assoc_find?_eq_none_of_not_mem {β : Type _} {m : List (String × β)}
    {k : String} (h : k ∉ m.map Prod.fst) :
    m.find? (fun kv => kv.1 == k) = none := by
  rw [List.find?_eq_none]
  intro kv hkv hbeq
  exact h (eq_of_beq hbeq ▸ List.mem_map_of_mem Prod.fst hkv)

theorem assoc_contains_iff {β : Type _} {m : List (String × β)} {k : String} :
    (m.map Prod.fst).contains k = true ↔ k ∈ m.map Prod.fst := by
  rw [List.contains_iff_exists_mem_beq]
  constructor
  · rintro ⟨k1, hk1, hbeq⟩
    rwa [eq_of_beq hbeq]
  · intro hmem
    exact ⟨k, hmem, by simp⟩

/-! ## Blocking lemmas -/

theorem lookupBlock_addToBlock (bs : List (String × List (Nat × Rec)))
    (k : String) (v : Nat × Rec) (f : String) :
    lookupBlock (addToBlock bs k v) f =
      if f = k then lookupBlock bs f ++ [v] else lookupBlock bs f := by
  unfold addToBlock
  by_cases hc : (bs.map Prod.fst).contains k = true
  · rw [if_pos hc]
    unfold lookupBlock
    rw [assoc_find?_map_appendVal]
    cases hfind : bs.find? (fun kv => kv.1 == f) with
    | none =>
        by_cases hk : f = k
        · subst hk
          have hs := assoc_find?_isSome_of_mem (assoc_contains_iff.1 hc)
          rw [hfind] at hs
          simp at hs
        · simp [hk]
    | some kv =>
        have hkvf : kv.1 = f := by simpa using List.find?_some hfind
        by_cases hk : f = k
        · have hkk : kv.1 = k := hkvf.trans hk
          simp [hkk, hk]
        · have hkk : ¬ kv.1 = k := fun hh => hk (hkvf.symm.trans hh)
          simp [hkk, hk]
  · rw [if_neg hc]
    unfold lookupBlock
    rw [List.find?_append]
    cases hfind : bs.find? (fun kv => kv.1 == f) with
    | some kv =>
        have hkvf : kv.1 = f := by simpa using List.find?_some hfind
        by_cases hk : f = k
        · exfalso
          have hmem : k ∈ bs.map Prod.fst := by
            rw [← hk, ← hkvf]
            exact List.mem_map_of_mem Prod.fst (List.mem_of_find?_eq_some hfind)
          exact hc (assoc_contains_iff.2 hmem)
        · simp [hk]
    | none =>
        by_cases hk : f = k
        · subst hk
          have hnm : f ∉ bs.map Prod.fst := fun hmem =>
            hc (assoc_contains_iff.2 hmem)
          rw [@List.find?_cons_of_pos _ (fun kv => kv.1 == f) (f, [v]) []
              (by simp)]
          simp
        · have hne : ¬ (((k, [v]) : String × List (Nat × Rec)).1 == f)
              = true := by
            simp only [beq_iff_eq]
            exact fun h => hk h.symm
          rw [@List.find?_cons_of_neg _ (fun kv => kv.1 == f) (k, [v]) [] hne]
          simp [hk]

theorem blocksOf_lookup (contacts : List Rec) (k : String) :
    lookupBlock (blocksOf contacts) k =
      contacts.enum.filter (fun ic => blockKey ic.2 == k) := by
  suffices h : ∀ (l : List (Nat × Rec)) (bs : List (String × List (Nat × Rec))),
      ∀ k, lookupBlock (l.foldl (fun bs ic => addToBlock bs (blockKey ic.2) ic)
          bs) k =
        lookupBlock bs k ++ l.filter (fun ic => blockKey ic.2 == k) by
    have hres := h contacts.enum [] k
    simpa [blocksOf, lookupBlock] using hres
  intro l
  induction l with
  | nil => intro bs k2; simp
  | cons ic rest ih =>
      intro bs k2
      rw [List.foldl_cons, ih, lookupBlock_addToBlock]
      by_cases hk : k2 = blockKey ic.2
      · rw [if_pos hk, List.filter_cons_of_pos (by simp [hk])]
        simp [List.append_assoc]
      · rw [if_neg hk, List.filter_cons_of_neg (by simp; exact fun h => hk h.symm)]

theorem mem_lookupBlock_iff {contacts : List Rec} {k : String}
    {e : Nat × Rec} :
    e ∈ lookupBlock (blocksOf contacts) k ↔
      e ∈ contacts.enum ∧ blockKey e.2 = k := by
  rw [blocksOf_lookup, List.mem_filter]
  simp

theorem lookupBlock_entry_mem {contacts : List Rec} {k : String}
    (h : lookupBlock (blocksOf contacts) k ≠ []) :
    (k, lookupBlock (blocksOf contacts) k) ∈ blocksOf contacts := by
  unfold lookupBlock at h ⊢
  cases hfind : (blocksOf contacts).find? (fun kv => kv.1 == k) with
  | none => rw [hfind] at h; exact absurd rfl h
  | some kv =>
      have hk : kv.1 = k := by simpa using List.find?_some hfind
      have hkv : (k, kv.2) = kv := by rw [← hk]
      show (k, kv.2) ∈ blocksOf contacts
      rw [hkv]
      exact List.mem_of_find?_eq_some hfind

theorem mem_allPairs {l : List α} {a b : α} (h : (a, b) ∈ allPairs l) :
    a ∈ l ∧ b ∈ l := by
  induction l with
  | nil => simp [allPairs] at h
  | cons x xs ih =>
      rw [allPairs, List.mem_append] at h
      rcases h with h | h
      · rcases List.mem_map.1 h with ⟨y, hy, heq⟩
        have ha : a = x := congrArg Prod.fst heq.symm
        have hb : b = y := congrArg Prod.snd heq.symm
        exact ⟨by simp [ha], by simp [hb, hy]⟩
      · rcases ih h with ⟨ha, hb⟩
        exact ⟨List.mem_cons_of_mem x ha, List.mem_cons_of_mem x hb⟩

theorem allPairs_complete {l : List α} {a b : α} (ha : a ∈ l) (hb : b ∈ l)
    (hne : a ≠ b) :
    (a, b) ∈ allPairs l ∨ (b, a) ∈ allPairs l := by
  induction l with
  | nil => simp at ha
  | cons x xs ih =>
      rw [List.mem_cons] at ha hb
      rcases ha with rfl | ha
      · rcases hb with rfl | hb
        · exact absurd rfl hne
        · exact Or.inl (by
            rw [allPairs, List.mem_append]
            exact Or.inl (List.mem_map_of_mem _ hb))
      · rcases hb with rfl | hb
        · exact Or.inr (by
            rw [allPairs, List.mem_append]
            exact Or.inl (List.mem_map_of_mem _ ha))
        · rcases ih ha hb with h | h
          · exact Or.inl (by rw [allPairs, List.mem_append]; exact Or.inr h)
          · exact Or.inr (by rw [allPairs, List.mem_append]; exact Or.inr h)

theorem pairsToCompare_of_block {contacts : List Rec} {k : String}
    {x y : Nat × Rec} (hx : x ∈ lookupBlock (blocksOf contacts) k)
    (hy : y ∈ lookupBlock (blocksOf contacts) k) (hne : x ≠ y) :
    ((x.2, y.2), (x.1, y.1)) ∈ pairsToCompare contacts ∨
    ((y.2, x.2), (y.1, x.1)) ∈ pairsToCompare contacts := by
  have hnonempty : lookupBlock (blocksOf contacts) k ≠ [] := by
    intro hnil
    rw [hnil] at hx
    simp at hx
  have hentry := lookupBlock_entry_mem hnonempty
  rcases allPairs_complete hx hy hne with h | h
  · refine Or.inl ?_
    rw [pairsToCompare, List.mem_flatMap]
    exact ⟨_, hentry, List.mem_map_of_mem _ h⟩
  · refine Or.inr ?_
    rw [pairsToCompare, List.mem_flatMap]
    exact ⟨_, hentry, List.mem_map_of_mem _ h⟩

/-! ## C10: the catch-all block -/

/-- C10: a record with no `company` field gets the literal catch-all key
`unknown`, so it shares a block with any record whose `company` case-folds
to `unknown`, and the two are compared as a candidate pair; a record whose
`company` is the empty string gets the distinct key `""` and never sits in
the catch-all block. -/
theorem catch_all_block (contacts : List Rec) (i j : Nat) (rx ry : Rec)
    (hix : (i, rx) ∈ contacts.enum) (hjy : (j, ry) ∈ contacts.enum)
    (hnoc : Rec.get? rx "company" = none)
    (hcy : ∃ s, Rec.get? ry "company" = some s ∧ strLower s = "unknown")
    (hij : i ≠ j) :
    (i, rx) ∈ lookupBlock (blocksOf contacts) "unknown" ∧
    (j, ry) ∈ lookupBlock (blocksOf contacts) "unknown" ∧
    (((rx, ry), (i, j)) ∈ pairsToCompare contacts ∨
     ((ry, rx), (j, i)) ∈ pairsToCompare contacts) ∧
    (∀ k rz, (k, rz) ∈ contacts.enum → Rec.get? rz "company" = some "" →
      blockKey rz = "" ∧
      (k, rz) ∉ lookupBlock (blocksOf contacts) "unknown") := by
  have hkx : blockKey rx = "unknown" := by
    unfold blockKey Rec.getD
    rw [hnoc]
    decide
  have hky : blockKey ry = "unknown" := by
    rcases hcy with ⟨s, hs, hlow⟩
    unfold blockKey Rec.getD
    rw [hs]
    exact hlow
  have hmx : (i, rx) ∈ lookupBlock (blocksOf contacts) "unknown" :=
    mem_lookupBlock_iff.2 ⟨hix, hkx⟩
  have hmy : (j, ry) ∈ lookupBlock (blocksOf contacts) "unknown" :=
    mem_lookupBlock_iff.2 ⟨hjy, hky⟩
  refine ⟨hmx, hmy, ?_, ?_⟩
  · have hne : ((i, rx) : Nat × Rec) ≠ (j, ry) := by
      intro h
      exact hij (congrArg Prod.fst h)
    exact pairsToCompare_of_block hmx hmy hne
  · intro k rz hmem hempty
    have hkz : blockKey rz = "" := by
      unfold blockKey Rec.getD
      rw [hempty]
      decide
    refine ⟨hkz, fun hin => ?_⟩
    have := (mem_lookupBlock_iff.1 hin).2
    rw [hkz] at this
    exact absurd this (by decide)

theorem catch_all_block_witness :
    ((0, ([("full_name", "A")] : Rec)) ∈
        ([[("full_name", "A")], [("company", "Unknown"), ("id", "b")],
          [("company", ""), ("id", "c")]] : List Rec).enum ∧
      True) ∧
    ((0, ([("full_name", "A")] : Rec)) ∈ lookupBlock
        (blocksOf [[("full_name", "A")], [("company", "Unknown"), ("id", "b")],
          [("company", ""), ("id", "c")]]) "unknown" ∧
      (1, ([("company", "Unknown"), ("id", "b")] : Rec)) ∈ lookupBlock
        (blocksOf [[("full_name", "A")], [("company", "Unknown"), ("id", "b")],
          [("company", ""), ("id", "c")]]) "unknown" ∧
      ((([("full_name", "A")], [("company", "Unknown"), ("id", "b")]), (0, 1)) ∈
          pairsToCompare [[("full_name", "A")],
            [("company", "Unknown"), ("id", "b")],
            [("company", ""), ("id", "c")]] ∨
        ((([("company", "Unknown"), ("id", "b")] : Rec),
            ([("full_name", "A")] : Rec)), (1, 0)) ∈
          pairsToCompare [[("full_name", "A")],
            [("company", "Unknown"), ("id", "b")],
            [("company", ""), ("id", "c")]]) ∧
      (∀ k rz, (k, rz) ∈ ([[("full_name", "A")],
            [("company", "Unknown"), ("id", "b")],
            [("company", ""), ("id", "c")]] : List Rec).enum →
        Rec.get? rz "company" = some "" →
        blockKey rz = "" ∧
        (k, rz) ∉ lookupBlock (blocksOf [[("full_name", "A")],
            [("company", "Unknown"), ("id", "b")],
            [("company", ""), ("id", "c")]]) "unknown")) :=
  ⟨⟨by decide, trivial⟩,
   catch_all_block _ 0 1 _ _ (by decide) (by decide) (by decide)
     ⟨"Unknown", by decide, by decide⟩ (by decide)⟩

/-! ## Adjacency lemmas -/

theorem keys_appendNbr (adj : List (String × List String)) (k v : String) :
    (appendNbr adj k v).map Prod.fst = adj.map Prod.fst := by
  unfold appendNbr
  rw [List.map_map]
  refine List.map_congr_left ?_
  intro kv _
  by_cases h : kv.1 = k <;> simp [h]

theorem lookupAdj_appendNbr (adj : List (String × List String))
    (k v f : String) (hk : k ∈ adj.map Prod.fst) :
    lookupAdj (appendNbr adj k v) f =
      if f = k then lookupAdj adj f ++ [v] else lookupAdj adj f := by
  unfold appendNbr lookupAdj
  rw [assoc_find?_map_appendVal]
  cases hfind : adj.find? (fun kv => kv.1 == f) with
  | none =>
      by_cases hf : f = k
      · subst hf
        have hs := assoc_find?_isSome_of_mem hk
        rw [hfind] at hs
        simp at hs
      · simp [hf]
  | some kv =>
      have hkvf : kv.1 = f := by simpa using List.find?_some hfind
      by_cases hf : f = k
      · have hkk : kv.1 = k := hkvf.trans hf
        simp [hkk, hf]
      · have hkk : ¬ kv.1 = k := fun hh => hf (hkvf.symm.trans hh)
        simp [hkk, hf]

theorem keys_ensureKey (adj : List (String × List String)) (k f : String) :
    f ∈ (ensureKey adj k).map Prod.fst ↔ f ∈ adj.map Prod.fst ∨ f = k := by
  unfold ensureKey
  by_cases hc : (adj.map Prod.fst).contains k = true
  · rw [if_pos hc]
    constructor
    · exact Or.inl
    · rintro (h | rfl)
      · exact h
      · exact assoc_contains_iff.1 hc
  · rw [if_neg hc]
    simp [or_comm]

theorem mem_ensureKey (adj : List (String × List String)) (k : String) :
    k ∈ (ensureKey adj k).map Prod.fst :=
  (keys_ensureKey adj k k).2 (Or.inr rfl)

theorem lookupAdj_ensureKey (adj : List (String × List String))
    (k f : String) :
    lookupAdj (ensureKey adj k) f = lookupAdj adj f := by
  unfold ensureKey
  by_cases hc : (adj.map Prod.fst).contains k = true
  · rw [if_pos hc]
  · rw [if_neg hc]
    unfold lookupAdj
    rw [List.find?_append]
    cases hfind : adj.find? (fun kv => kv.1 == f) with
    | some kv => rfl
    | none =>
        by_cases hf : f = k
        · subst hf
          rw [@List.find?_cons_of_pos _ (fun kv => kv.1 == f) (f, [])
              [] (by simp)]
          rfl
        · have hne : ¬ (((k, []) : String × List String).1 == f) = true := by
            simp only [beq_iff_eq]
            exact fun h => hf h.symm
          rw [@List.find?_cons_of_neg _ (fun kv => kv.1 == f) (k, []) [] hne]
          rfl

theorem lookupAdj_addEdge (adj : List (String × List String))
    (a b f : String) :
    lookupAdj (addEdge adj a b) f =
      lookupAdj adj f ++
        ((if f = a then [b] else []) ++ (if f = b then [a] else [])) := by
  unfold addEdge
  have hb1 : b ∈ (ensureKey (ensureKey adj a) b).map Prod.fst :=
    mem_ensureKey _ b
  have ha1 : a ∈ (ensureKey (ensureKey adj a) b).map Prod.fst :=
    (keys_ensureKey _ b a).2 (Or.inl (mem_ensureKey adj a))
  have hb2 : b ∈ (appendNbr (ensureKey (ensureKey adj a) b) a b).map
      Prod.fst := by rwa [keys_appendNbr]
  rw [lookupAdj_appendNbr _ b a f hb2, lookupAdj_appendNbr _ a b f ha1,
    lookupAdj_ensureKey, lookupAdj_ensureKey]
  by_cases hfa : f = a
  · by_cases hfb : f = b
    · have hab : a = b := hfa.symm.trans hfb
      simp [hfa, hfb, hab, List.append_assoc]
    · have hab : ¬ a = b := fun h => hfb (hfa.trans h)
      simp [hfa, hfb, hab]
  · by_cases hfb : f = b
    · have hba : ¬ b = a := fun h => hfa (hfb.trans h)
      simp [hfa, hfb, hba]
    · simp [hfa, hfb]

theorem keys_addEdge (adj : List (String × List String)) (a b f : String) :
    f ∈ (addEdge adj a b).map Prod.fst ↔
      f ∈ adj.map Prod.fst ∨ f = a ∨ f = b := by
  unfold addEdge
  rw [keys_appendNbr, keys_appendNbr, keys_ensureKey, keys_ensureKey]
  tauto

theorem buildAdj_lookup (pairs : List (Rec × Rec × ℚ)) (f : String) :
    lookupAdj (buildAdj pairs) f =
      pairs.flatMap (fun t =>
        (if f = recId t.1 then [recId t.2.1] else []) ++
        (if f = recId t.2.1 then [recId t.1] else [])) := by
  suffices h : ∀ (l : List (Rec × Rec × ℚ)) (adj : List (String × List String)),
      lookupAdj (l.foldl (fun adj t =>
          addEdge adj (recId t.1) (recId t.2.1)) adj) f =
        lookupAdj adj f ++ l.flatMap (fun t =>
          (if f = recId t.1 then [recId t.2.1] else []) ++
          (if f = recId t.2.1 then [recId t.1] else [])) by
    have hres := h pairs []
    simpa [buildAdj, lookupAdj] using hres
  intro l
  induction l with
  | nil => intro adj; simp
  | cons t rest ih =>
      intro adj
      rw [List.foldl_cons, ih, lookupAdj_addEdge, List.flatMap_cons,
        List.append_assoc]

theorem keys_buildAdj (pairs : List (Rec × Rec × ℚ)) (f : String) :
    f ∈ (buildAdj pairs).map Prod.fst ↔ appearsIn pairs f := by
  suffices h : ∀ (l : List (Rec × Rec × ℚ)) (adj : List (String × List String)),
      f ∈ (l.foldl (fun adj t =>
          addEdge adj (recId t.1) (recId t.2.1)) adj).map Prod.fst ↔
        f ∈ adj.map Prod.fst ∨
          ∃ t ∈ l, recId t.1 = f ∨ recId t.2.1 = f by
    have hres := h pairs []
    simp only [buildAdj, appearsIn]
    rw [hres]
    simp
  intro l
  induction l with
  | nil => intro adj; simp
  | cons t rest ih =>
      intro adj
      rw [List.foldl_cons, ih, keys_addEdge]
      constructor
      · rintro ((h | rfl | rfl) | ⟨t2, ht2, h⟩)
        · exact Or.inl h
        · exact Or.inr ⟨t, List.mem_cons_self t rest, Or.inl rfl⟩
        · exact Or.inr ⟨t, List.mem_cons_self t rest, Or.inr rfl⟩
        · exact Or.inr ⟨t2, List.mem_cons_of_mem t ht2, h⟩
      · rintro (h | ⟨t2, ht2, h⟩)
        · exact Or.inl (Or.inl h)
        · rcases List.mem_cons.1 ht2 with rfl | ht2
          · rcases h with h | h
            · exact Or.inl (Or.inr (Or.inl h.symm))
            · exact Or.inl (Or.inr (Or.inr h.symm))
          · exact Or.inr ⟨t2, ht2, h⟩

theorem EdgeA_buildAdj {pairs : List (Rec × Rec × ℚ)} {x y : String} :
    EdgeA (buildAdj pairs) x y ↔ EdgeP pairs x y := by
  unfold EdgeA EdgeP
  rw [buildAdj_lookup, List.mem_flatMap]
  constructor
  · rintro ⟨t, ht, hy⟩
    rw [List.mem_append] at hy
    rcases hy with hy | hy
    · by_cases hx : x = recId t.1
      · rw [if_pos hx] at hy
        exact ⟨t, ht, Or.inl ⟨hx.symm, (List.mem_singleton.1 hy).symm⟩⟩
      · rw [if_neg hx] at hy
        simp at hy
    · by_cases hx : x = recId t.2.1
      · rw [if_pos hx] at hy
        exact ⟨t, ht, Or.inr ⟨(List.mem_singleton.1 hy).symm, hx.symm⟩⟩
      · rw [if_neg hx] at hy
        simp at hy
  · rintro ⟨t, ht, ⟨hx, hy⟩ | ⟨hy, hx⟩⟩
    · exact ⟨t, ht, by simp [hx.symm, hy.symm]⟩
    · exact ⟨t, ht, by
        rw [List.mem_append]
        by_cases hab : x = recId t.1
        · exact Or.inl (by simp [hab, hy.symm, hab.symm.trans hx.symm])
        · exact Or.inr (by simp [hx.symm, hy.symm])⟩

theorem EdgeP_symm {pairs : List (Rec × Rec × ℚ)} :
    Symmetric (EdgeP pairs) := by
  rintro x y ⟨t, ht, ⟨h1, h2⟩ | ⟨h1, h2⟩⟩
  · exact ⟨t, ht, Or.inr ⟨h1, h2⟩⟩
  · exact ⟨t, ht, Or.inl ⟨h1, h2⟩⟩

theorem EdgeA_buildAdj_symm {pairs : List (Rec × Rec × ℚ)} :
    Symmetric (EdgeA (buildAdj pairs)) := by
  intro x y h
  exact EdgeA_buildAdj.2 (EdgeP_symm (EdgeA_buildAdj.1 h))

theorem EdgeP_appears_right {pairs : List (Rec × Rec × ℚ)} {x y : String}
    (h : EdgeP pairs x y) : appearsIn pairs y := by
  rcases h with ⟨t, ht, ⟨-, h2⟩ | ⟨h1, -⟩⟩
  · exact ⟨t, ht, Or.inr h2⟩
  · exact ⟨t, ht, Or.inl h1⟩

theorem EdgeP_appears_left {pairs : List (Rec × Rec × ℚ)} {x y : String}
    (h : EdgeP pairs x y) : appearsIn pairs x :=
  EdgeP_appears_right (EdgeP_symm h)

/-! ## Traversal invariants -/

theorem nodup_newNeighbors (visited ns : List String) :
    (newNeighbors visited ns).Nodup := by
  induction ns generalizing visited with
  | nil => simp [newNeighbors]
  | cons n rest ih =>
      by_cases hn : n ∈ visited
      · simpa [newNeighbors, if_pos hn] using ih visited
      · simp only [newNeighbors, if_neg hn]
        refine List.Nodup.cons ?_ (ih (visited ++ [n]))
        intro hmem
        rcases mem_newNeighbors.1 hmem with ⟨-, habs⟩
        exact habs (by simp)

theorem dfs_spec (adj : List (String × List String)) (u : String)
    (V0 : List String) (stack visited comp : List String)
    (h1 : ∀ s ∈ stack, s ∈ visited)
    (h2 : ∀ c ∈ comp, c ∈ visited)
    (h3 : ∀ s ∈ stack, ReachA adj u s)
    (h4 : ∀ c ∈ comp, ReachA adj u c)
    (h5 : ∀ c ∈ comp, ∀ y, EdgeA adj c y → y ∈ visited ∨ y ∈ stack)
    (h6 : ∀ x ∈ visited, x ∈ V0 ∨ x ∈ comp ∨ x ∈ stack)
    (h7 : ∀ x ∈ V0, x ∈ visited)
    (h8 : ∀ s ∈ stack, s ∉ V0)
    (h9 : ∀ c ∈ comp, c ∉ V0)
    (h10 : (comp ++ stack).Nodup) :
    (∀ c ∈ comp, c ∈ (dfs adj stack visited comp).1) ∧
    (∀ s ∈ stack, s ∈ (dfs adj stack visited comp).1) ∧
    (∀ x ∈ visited, x ∈ (dfs adj stack visited comp).2) ∧
    (∀ x ∈ (dfs adj stack visited comp).1, ReachA adj u x) ∧
    (∀ x ∈ (dfs adj stack visited comp).1, ∀ y, EdgeA adj x y →
      y ∈ (dfs adj stack visited comp).2) ∧
    (∀ x ∈ (dfs adj stack visited comp).2, x ∈ V0 ∨
      x ∈ (dfs adj stack visited comp).1) ∧
    (∀ x ∈ (dfs adj stack visited comp).1, x ∉ V0) ∧
    (dfs adj stack visited comp).1.Nodup ∧
    (∀ x ∈ (dfs adj stack visited comp).1,
      x ∈ (dfs adj stack visited comp).2) := by
  revert h1 h2 h3 h4 h5 h6 h7 h8 h9 h10
  induction stack, visited, comp using dfs.induct adj with
  | case1 visited comp =>
      intro h1 h2 h3 h4 h5 h6 h7 h8 h9 h10
      simp only [dfs]
      refine ⟨fun c hc => hc, fun s hs => by simp at hs, fun x hx => hx, h4,
        ?_, ?_, h9, ?_, h2⟩
      · intro x hx y hy
        rcases h5 x hx y hy with h | h
        · exact h
        · simp at h
      · intro x hx
        rcases h6 x hx with h | h | h
        · exact Or.inl h
        · exact Or.inr h
        · simp at h
      · simpa using h10
  | case2 node rest visited comp nbrs ih =>
      intro h1 h2 h3 h4 h5 h6 h7 h8 h9 h10
      simp only [dfs]
      have hnodev : node ∈ visited := h1 node (List.mem_cons_self node rest)
      have hreach_node : ReachA adj u node :=
        h3 node (List.mem_cons_self node rest)
      have hrestv : ∀ s ∈ rest, s ∈ visited :=
        fun s hs => h1 s (List.mem_cons_of_mem node hs)
      have hnbrs : ∀ x ∈ newNeighbors visited (lookupAdj adj node),
          x ∈ lookupAdj adj node ∧ x ∉ visited :=
        fun x hx => mem_newNeighbors.1 hx
      have hcompdisj : ∀ c ∈ comp, c ∉ node :: rest := by
        intro c hc
        exact (List.nodup_append.1 h10).2.2 hc
      have hnoderest : node ∉ rest := by
        have := (List.nodup_append.1 h10).2.1
        exact (List.nodup_cons.1 this).1
      have H1 : ∀ s ∈ (newNeighbors visited (lookupAdj adj node)).reverse ++
          rest, s ∈ visited ++ newNeighbors visited (lookupAdj adj node) := by
        intro s hs
        rcases List.mem_append.1 hs with hs | hs
        · exact List.mem_append_right _ (List.mem_reverse.1 hs)
        · exact List.mem_append_left _ (hrestv s hs)
      have H2 : ∀ c ∈ comp ++ [node],
          c ∈ visited ++ newNeighbors visited (lookupAdj adj node) := by
        intro c hc
        rcases List.mem_append.1 hc with hc | hc
        · exact List.mem_append_left _ (h2 c hc)
        · rw [List.mem_singleton.1 hc]
          exact List.mem_append_left _ hnodev
      have H3 : ∀ s ∈ (newNeighbors visited (lookupAdj adj node)).reverse ++
          rest, ReachA adj u s := by
        intro s hs
        rcases List.mem_append.1 hs with hs | hs
        · exact Relation.ReflTransGen.tail hreach_node
            (hnbrs s (List.mem_reverse.1 hs)).1
        · exact h3 s (List.mem_cons_of_mem node hs)
      have H4 : ∀ c ∈ comp ++ [node], ReachA adj u c := by
        intro c hc
        rcases List.mem_append.1 hc with hc | hc
        · exact h4 c hc
        · rw [List.mem_singleton.1 hc]
          exact hreach_node
      have H5 : ∀ c ∈ comp ++ [node], ∀ y, EdgeA adj c y →
          y ∈ visited ++ newNeighbors visited (lookupAdj adj node) ∨
          y ∈ (newNeighbors visited (lookupAdj adj node)).reverse ++ rest := by
        intro c hc y hy
        rcases List.mem_append.1 hc with hc | hc
        · rcases h5 c hc y hy with h | h
          · exact Or.inl (List.mem_append_left _ h)
          · rcases List.mem_cons.1 h with rfl | h
            · exact Or.inl (List.mem_append_left _ hnodev)
            · exact Or.inr (List.mem_append_right _ h)
        · rw [List.mem_singleton.1 hc] at hy
          by_cases hyv : y ∈ visited
          · exact Or.inl (List.mem_append_left _ hyv)
          · exact Or.inl (List.mem_append_right _
              (mem_newNeighbors.2 ⟨hy, hyv⟩))
      have H6 : ∀ x ∈ visited ++ newNeighbors visited (lookupAdj adj node),
          x ∈ V0 ∨ x ∈ comp ++ [node] ∨
          x ∈ (newNeighbors visited (lookupAdj adj node)).reverse ++ rest := by
        intro x hx
        rcases List.mem_append.1 hx with hx | hx
        · rcases h6 x hx with h | h | h
          · exact Or.inl h
          · exact Or.inr (Or.inl (List.mem_append_left _ h))
          · rcases List.mem_cons.1 h with rfl | h
            · exact Or.inr (Or.inl (List.mem_append_right _
                (List.mem_singleton_self x)))
            · exact Or.inr (Or.inr (List.mem_append_right _ h))
        · exact Or.inr (Or.inr (List.mem_append_left _
            (List.mem_reverse.2 hx)))
      have H7 : ∀ x ∈ V0,
          x ∈ visited ++ newNeighbors visited (lookupAdj adj node) :=
        fun x hx => List.mem_append_left _ (h7 x hx)
      have H8 : ∀ s ∈ (newNeighbors visited (lookupAdj adj node)).reverse ++
          rest, s ∉ V0 := by
        intro s hs
        rcases List.mem_append.1 hs with hs | hs
        · intro hV0
          exact (hnbrs s (List.mem_reverse.1 hs)).2 (h7 s hV0)
        · exact h8 s (List.mem_cons_of_mem node hs)
      have H9 : ∀ c ∈ comp ++ [node], c ∉ V0 := by
        intro c hc
        rcases List.mem_append.1 hc with hc | hc
        · exact h9 c hc
        · rw [List.mem_singleton.1 hc]
          exact h8 node (List.mem_cons_self node rest)
      have H10 : ((comp ++ [node]) ++
          ((newNeighbors visited (lookupAdj adj node)).reverse ++
            rest)).Nodup := by
        have hc10 := List.nodup_append.1 h10
        have hcompn : comp.Nodup := hc10.1
        have hrestn : rest.Nodup := (List.nodup_cons.1 hc10.2.1).2
        rw [List.nodup_append]
        refine ⟨?_, ?_, ?_⟩
        · rw [List.nodup_append]
          refine ⟨hcompn, List.nodup_singleton node, ?_⟩
          intro a ha hb
          rw [List.mem_singleton.1 hb] at ha
          exact hcompdisj node ha (List.mem_cons_self node rest)
        · rw [List.nodup_append]
          refine ⟨List.nodup_reverse.2 (nodup_newNeighbors _ _), hrestn, ?_⟩
          intro a ha hb
          exact (hnbrs a (List.mem_reverse.1 ha)).2 (hrestv a hb)
        · intro a ha hb
          have hav : a ∈ visited := by
            rcases List.mem_append.1 ha with ha2 | ha2
            · exact h2 a ha2
            · rw [List.mem_singleton.1 ha2]
              exact hnodev
          rcases List.mem_append.1 hb with hb | hb
          · exact (hnbrs a (List.mem_reverse.1 hb)).2 hav
          · rcases List.mem_append.1 ha with ha2 | ha2
            · exact hcompdisj a ha2 (List.mem_cons_of_mem node hb)
            · rw [List.mem_singleton.1 ha2] at hb
              exact hnoderest hb
      obtain ⟨c1, c2, c3, c4, c5, c6, c7, c8, c9⟩ :=
        ih H1 H2 H3 H4 H5 H6 H7 H8 H9 H10
      refine ⟨?_, ?_, ?_, c4, c5, c6, c7, c8, c9⟩
      · intro c hc
        exact c1 c (List.mem_append_left _ hc)
      · intro s hs
        rcases List.mem_cons.1 hs with rfl | hs
        · exact c1 s (List.mem_append_right _ (List.mem_singleton_self s))
        · exact c2 s (List.mem_append_right _ hs)
      · intro x hx
        exact c3 x (List.mem_append_left _ hx)

theorem dfs_from_spec (adj : List (String × List String)) (u : String)
    (V0 : List String) (hu : u ∉ V0) (cs v : List String)
    (heq : dfs adj [u] (V0 ++ [u]) [] = (cs, v)) :
    u ∈ cs ∧ (∀ x ∈ cs, ReachA adj u x) ∧
    (∀ x ∈ cs, ∀ y, EdgeA adj x y → y ∈ v) ∧
    (∀ x, x ∈ v ↔ x ∈ V0 ∨ x ∈ cs) ∧
    (∀ x ∈ cs, x ∉ V0) ∧ cs.Nodup := by
  obtain ⟨c1, c2, c3, c4, c5, c6, c7, c8, c9⟩ :=
    dfs_spec adj u V0 [u] (V0 ++ [u]) []
      (by intro s hs; rw [List.mem_singleton.1 hs]; simp)
      (by intro c hc; simp at hc)
      (by
        intro s hs
        rw [List.mem_singleton.1 hs]
        exact Relation.ReflTransGen.refl)
      (by intro c hc; simp at hc)
      (by intro c hc; simp at hc)
      (by
        intro x hx
        rcases List.mem_append.1 hx with hx | hx
        · exact Or.inl hx
        · exact Or.inr (Or.inr hx))
      (fun x hx => List.mem_append_left _ hx)
      (by
        intro s hs
        rw [List.mem_singleton.1 hs]
        exact hu)
      (by intro c hc; simp at hc)
      (by simp)
  rw [heq] at c1 c2 c3 c4 c5 c6 c7 c8 c9
  refine ⟨c2 u (List.mem_singleton_self u), c4, c5, ?_, c7, c8⟩
  intro x
  constructor
  · exact c6 x
  · rintro (hx | hx)
    · exact c3 x (List.mem_append_left _ hx)
    · exact c9 x hx

theorem reach_mem_keys (adj : List (String × List String))
    (hval : ∀ x y, EdgeA adj x y → y ∈ adj.map Prod.fst) {x y : String}
    (hx : x ∈ adj.map Prod.fst) (hxy : ReachA adj x y) :
    y ∈ adj.map Prod.fst := by
  induction hxy with
  | refl => exact hx
  | tail hab hbc ih => exact hval _ _ hbc

theorem dfs_from_complete (adj : List (String × List String)) (u : String)
    (V0 : List String) (hsym : Symmetric (EdgeA adj))
    (hclosed : ∀ x ∈ V0, ∀ y, ReachA adj x y → y ∈ V0)
    (hu : u ∉ V0) (cs v : List String)
    (heq : dfs adj [u] (V0 ++ [u]) [] = (cs, v))
    {x : String} (hx : ReachA adj u x) : x ∈ cs := by
  obtain ⟨huc, hreach, hclose, hviff, hdisjV, -⟩ :=
    dfs_from_spec adj u V0 hu cs v heq
  induction hx with
  | refl => exact huc
  | @tail b c' hab hbc ih =>
      have hbc2 := ih
      have hcv : c' ∈ v := hclose b hbc2 c' hbc
      rcases (hviff c').1 hcv with hcV | hcc
      · exfalso
        have hreachcb : ReachA adj c' b :=
          Relation.ReflTransGen.single (hsym hbc)
        have hbv : b ∈ V0 := hclosed c' hcV b hreachcb
        exact hdisjV b hbc2 hbv
      · exact hcc

theorem buildGroupsAux_spec (adj : List (String × List String))
    (hsym : Symmetric (EdgeA adj))
    (hval : ∀ x y, EdgeA adj x y → y ∈ adj.map Prod.fst) :
    ∀ (ks V : List String) (G : List (List String)),
    (∀ g ∈ G, ∀ x ∈ g, ∀ y, (y ∈ g ↔ ReachA adj x y)) →
    (∀ w, w ∈ V ↔ ∃ g ∈ G, w ∈ g) →
    (∀ k ∈ adj.map Prod.fst, k ∈ V ∨ k ∈ ks) →
    (∀ k ∈ ks, k ∈ adj.map Prod.fst) →
    (∀ g ∈ G, g ≠ [] ∧ g.Nodup) →
    (List.Pairwise (fun g h => ∀ x ∈ g, x ∉ h) G) →
    (∀ g ∈ G, ∀ x ∈ g, x ∈ adj.map Prod.fst) →
    (∀ g ∈ buildGroupsAux adj ks V G, ∀ x ∈ g, ∀ y,
      (y ∈ g ↔ ReachA adj x y)) ∧
    (∀ k ∈ adj.map Prod.fst, ∃ g ∈ buildGroupsAux adj ks V G, k ∈ g) ∧
    (∀ g ∈ buildGroupsAux adj ks V G, ∀ x ∈ g, x ∈ adj.map Prod.fst) ∧
    (∀ g ∈ buildGroupsAux adj ks V G, g ≠ [] ∧ g.Nodup) ∧
    List.Pairwise (fun g h => ∀ x ∈ g, x ∉ h)
      (buildGroupsAux adj ks V G) := by
  intro ks
  induction ks with
  | nil =>
      intro V G hO1 hO2 hO3 hO4 hO5 hO6 hO7
      simp only [buildGroupsAux]
      refine ⟨hO1, ?_, hO7, hO5, hO6⟩
      intro k hk
      rcases hO3 k hk with h | h
      · exact (hO2 k).1 h
      · simp at h
  | cons uid rest ih =>
      intro V G hO1 hO2 hO3 hO4 hO5 hO6 hO7
      by_cases huid : uid ∈ V
      · rw [buildGroupsAux, if_pos huid]
        refine ih V G hO1 hO2 ?_ (fun k hk => hO4 k
          (List.mem_cons_of_mem uid hk)) hO5 hO6 hO7
        intro k hk
        rcases hO3 k hk with h | h
        · exact Or.inl h
        · rcases List.mem_cons.1 h with rfl | h
          · exact Or.inl huid
          · exact Or.inr h
      · rw [buildGroupsAux, if_neg huid]
        have hVclosed : ∀ x ∈ V, ∀ y, ReachA adj x y → y ∈ V := by
          intro x hxV y hxy
          obtain ⟨g, hg, hxg⟩ := (hO2 x).1 hxV
          exact (hO2 y).2 ⟨g, hg, (hO1 g hg x hxg y).2 hxy⟩
        obtain ⟨hu_in, hreach, hclose, hviff, hdisjV, hnodup⟩ :=
          dfs_from_spec adj uid V huid
            (dfs adj [uid] (V ++ [uid]) []).1
            (dfs adj [uid] (V ++ [uid]) []).2 rfl
        have hcomplete : ∀ x, ReachA adj uid x →
            x ∈ (dfs adj [uid] (V ++ [uid]) []).1 := by
          intro x hx
          exact dfs_from_complete adj uid V hsym hVclosed huid _ _ rfl hx
        have hreach_sym : Symmetric (ReachA adj) :=
          Relation.ReflTransGen.symmetric hsym
        have hclass : ∀ x ∈ (dfs adj [uid] (V ++ [uid]) []).1, ∀ y,
            (y ∈ (dfs adj [uid] (V ++ [uid]) []).1 ↔ ReachA adj x y) := by
          intro x hx y
          constructor
          · intro hy
            exact Relation.ReflTransGen.trans (hreach_sym (hreach x hx))
              (hreach y hy)
          · intro hxy
            exact hcomplete y (Relation.ReflTransGen.trans (hreach x hx) hxy)
        refine ih (dfs adj [uid] (V ++ [uid]) []).2
          (G ++ [(dfs adj [uid] (V ++ [uid]) []).1]) ?_ ?_ ?_
          (fun k hk => hO4 k (List.mem_cons_of_mem uid hk)) ?_ ?_ ?_
        · intro g hg
          rcases List.mem_append.1 hg with hg | hg
          · exact hO1 g hg
          · rw [List.mem_singleton.1 hg]
            exact hclass
        · intro w
          rw [hviff w]
          constructor
          · rintro (h | h)
            · obtain ⟨g, hg, hwg⟩ := (hO2 w).1 h
              exact ⟨g, List.mem_append_left _ hg, hwg⟩
            · exact ⟨_, List.mem_append_right _ (List.mem_singleton_self _), h⟩
          · rintro ⟨g, hg, hwg⟩
            rcases List.mem_append.1 hg with hg | hg
            · exact Or.inl ((hO2 w).2 ⟨g, hg, hwg⟩)
            · rw [List.mem_singleton.1 hg] at hwg
              exact Or.inr hwg
        · intro k hk
          rcases hO3 k hk with h | h
          · exact Or.inl ((hviff k).2 (Or.inl h))
          · rcases List.mem_cons.1 h with rfl | h
            · exact Or.inl ((hviff k).2 (Or.inr hu_in))
            · exact Or.inr h
        · intro g hg
          rcases List.mem_append.1 hg with hg | hg
          · exact hO5 g hg
          · rw [List.mem_singleton.1 hg]
            exact ⟨List.ne_nil_of_mem hu_in, hnodup⟩
        · rw [List.pairwise_append]
          refine ⟨hO6, List.pairwise_singleton _ _, ?_⟩
          intro g hg g2 hg2 x hxg
          rw [List.mem_singleton.1 hg2]
          intro hxc
          exact hdisjV x hxc ((hO2 x).2 ⟨g, hg, hxg⟩)
        · intro g hg
          rcases List.mem_append.1 hg with hg | hg
          · exact hO7 g hg
          · rw [List.mem_singleton.1 hg]
            intro x hx
            exact reach_mem_keys adj hval
              (hO4 uid (List.mem_cons_self uid rest)) (hreach x hx)

theorem ReachA_buildAdj {pairs : List (Rec × Rec × ℚ)} :
    ReachA (buildAdj pairs) = ReachP pairs := by
  have hEq : EdgeA (buildAdj pairs) = EdgeP pairs := by
    funext x y
    exact propext EdgeA_buildAdj
  rw [ReachA, hEq, ReachP]

theorem idComponents_spec (pairs : List (Rec × Rec × ℚ)) :
    (∀ g ∈ idComponents pairs, ∀ x ∈ g, ∀ y,
      (y ∈ g ↔ ReachP pairs x y)) ∧
    (∀ x, appearsIn pairs x → ∃ g ∈ idComponents pairs, x ∈ g) ∧
    (∀ g ∈ idComponents pairs, ∀ x ∈ g, appearsIn pairs x) ∧
    (∀ g ∈ idComponents pairs, g ≠ [] ∧ g.Nodup) ∧
    List.Pairwise (fun g h => ∀ x ∈ g, x ∉ h) (idComponents pairs) := by
  have hval : ∀ x y, EdgeA (buildAdj pairs) x y →
      y ∈ (buildAdj pairs).map Prod.fst := by
    intro x y h
    exact (keys_buildAdj pairs y).2 (EdgeP_appears_right (EdgeA_buildAdj.1 h))
  obtain ⟨R1, R2, R3, R4, R5⟩ := buildGroupsAux_spec (buildAdj pairs)
    EdgeA_buildAdj_symm hval ((buildAdj pairs).map Prod.fst) [] []
    (by intro g hg; simp at hg)
    (by intro w; simp)
    (fun k hk => Or.inr hk)
    (fun k hk => hk)
    (by intro g hg; simp at hg)
    (by simp)
    (by intro g hg; simp at hg)
  rw [ReachA_buildAdj] at R1
  have hcomp : idComponents pairs =
      buildGroupsAux (buildAdj pairs) ((buildAdj pairs).map Prod.fst) [] [] :=
    rfl
  rw [hcomp]
  refine ⟨R1, ?_, ?_, R4, R5⟩
  · intro x hx
    exact R2 x ((keys_buildAdj pairs x).2 hx)
  · intro g hg x hx
    exact (keys_buildAdj pairs x).1 (R3 g hg x hx)

/-! ## Id-map lemmas -/

theorem mem_setKey {m : List (String × Rec)} {k : String} {v : Rec}
    {kv : String × Rec} (h : kv ∈ setKey m k v) :
    kv ∈ m ∨ kv = (k, v) := by
  unfold setKey at h
  by_cases hc : (m.map Prod.fst).contains k = true
  · rw [if_pos hc] at h
    rcases List.mem_map.1 h with ⟨kv0, hkv0, heq⟩
    by_cases hk : kv0.1 = k
    · rw [if_pos hk] at heq
      exact Or.inr (by rw [← heq, hk])
    · rw [if_neg hk] at heq
      exact Or.inl (heq ▸ hkv0)
  · rw [if_neg hc] at h
    rcases List.mem_append.1 h with h | h
    · exact Or.inl h
    · exact Or.inr (List.mem_singleton.1 h)

theorem keys_setKey {m : List (String × Rec)} {k : String} {v : Rec}
    {f : String} :
    f ∈ (setKey m k v).map Prod.fst ↔ f ∈ m.map Prod.fst ∨ f = k := by
  unfold setKey
  by_cases hc : (m.map Prod.fst).contains k = true
  · rw [if_pos hc, List.map_map]
    have hkeys : (Prod.fst ∘ fun kv =>
        if kv.1 = k then (kv.1, v) else kv) = (Prod.fst (α := String)
          (β := Rec)) := by
      funext kv
      by_cases hk : kv.1 = k <;> simp [hk]
    rw [hkeys]
    constructor
    · exact Or.inl
    · rintro (h | rfl)
      · exact h
      · exact assoc_contains_iff.1 hc
  · rw [if_neg hc]
    simp [or_comm]

theorem buildIdMap_sound (pairs : List (Rec × Rec × ℚ)) :
    ∀ kv ∈ buildIdMap pairs, recId kv.2 = kv.1 ∧ kv.2 ∈ pairRecords pairs := by
  suffices h : ∀ (l : List (Rec × Rec × ℚ)) (m : List (String × Rec)),
      (∀ t ∈ l, t.1 ∈ pairRecords pairs ∧ t.2.1 ∈ pairRecords pairs) →
      (∀ kv ∈ m, recId kv.2 = kv.1 ∧ kv.2 ∈ pairRecords pairs) →
      ∀ kv ∈ l.foldl (fun m t =>
          setKey (setKey m (recId t.1) t.1) (recId t.2.1) t.2.1) m,
        recId kv.2 = kv.1 ∧ kv.2 ∈ pairRecords pairs by
    refine h pairs [] ?_ (by intro kv hkv; simp at hkv)
    intro t ht
    constructor
    · exact List.mem_flatMap.2 ⟨t, ht, by simp⟩
    · exact List.mem_flatMap.2 ⟨t, ht, by simp⟩
  intro l
  induction l with
  | nil =>
      intro m hl hm kv hkv
      exact hm kv hkv
  | cons t rest ih =>
      intro m hl hm kv hkv
      rw [List.foldl_cons] at hkv
      refine ih _ (fun t2 ht2 => hl t2 (List.mem_cons_of_mem t ht2)) ?_ kv hkv
      intro kv2 hkv2
      rcases mem_setKey hkv2 with h | h
      · rcases mem_setKey h with h2 | h2
        · exact hm kv2 h2
        · rw [h2]
          exact ⟨rfl, (hl t (List.mem_cons_self t rest)).1⟩
      · rw [h]
        exact ⟨rfl, (hl t (List.mem_cons_self t rest)).2⟩

theorem buildIdMap_keys (pairs : List (Rec × Rec × ℚ)) (x : String) :
    x ∈ (buildIdMap pairs).map Prod.fst ↔ appearsIn pairs x := by
  suffices h : ∀ (l : List (Rec × Rec × ℚ)) (m : List (String × Rec)),
      x ∈ (l.foldl (fun m t =>
          setKey (setKey m (recId t.1) t.1) (recId t.2.1) t.2.1) m).map
        Prod.fst ↔
        x ∈ m.map Prod.fst ∨ ∃ t ∈ l, recId t.1 = x ∨ recId t.2.1 = x by
    rw [buildIdMap, h pairs [], appearsIn]
    simp
  intro l
  induction l with
  | nil => intro m; simp
  | cons t rest ih =>
      intro m
      rw [List.foldl_cons, ih, keys_setKey, keys_setKey]
      constructor
      · rintro (((h | rfl) | rfl) | ⟨t2, ht2, h⟩)
        · exact Or.inl h
        · exact Or.inr ⟨t, List.mem_cons_self t rest, Or.inl rfl⟩
        · exact Or.inr ⟨t, List.mem_cons_self t rest, Or.inr rfl⟩
        · exact Or.inr ⟨t2, List.mem_cons_of_mem t ht2, h⟩
      · rintro (h | ⟨t2, ht2, h⟩)
        · exact Or.inl (Or.inl (Or.inl h))
        · rcases List.mem_cons.1 ht2 with rfl | ht2
          · rcases h with h | h
            · exact Or.inl (Or.inl (Or.inr h.symm))
            · exact Or.inl (Or.inr h.symm)
          · exact Or.inr ⟨t2, ht2, h⟩

theorem idLookup_spec (pairs : List (Rec × Rec × ℚ)) {x : String}
    (hx : appearsIn pairs x) :
    recId (idLookup (buildIdMap pairs) x) = x ∧
    idLookup (buildIdMap pairs) x ∈ pairRecords pairs := by
  have hmem : x ∈ (buildIdMap pairs).map Prod.fst :=
    (buildIdMap_keys pairs x).2 hx
  have hs := assoc_find?_isSome_of_mem hmem
  rcases Option.isSome_iff_exists.1 hs with ⟨kv, hfind⟩
  have hkvx : kv.1 = x := by simpa using List.find?_some hfind
  have hkvmem := List.mem_of_find?_eq_some hfind
  obtain ⟨hid, hrec⟩ := buildIdMap_sound pairs kv hkvmem
  unfold idLookup
  rw [hfind]
  exact ⟨hid.trans hkvx, hrec⟩

theorem inGroupId_map_iff (pairs : List (Rec × Rec × ℚ))
    {comp : List String} (happ : ∀ x ∈ comp, appearsIn pairs x)
    (b : String) :
    inGroupId (comp.map (fun x => idLookup (buildIdMap pairs) x)) b ↔
      b ∈ comp := by
  constructor
  · rintro ⟨r, hr, hid⟩
    rcases List.mem_map.1 hr with ⟨x, hx, rfl⟩
    rw [(idLookup_spec pairs (happ x hx)).1] at hid
    exact hid ▸ hx
  · intro hb
    exact ⟨idLookup (buildIdMap pairs) b,
      List.mem_map_of_mem _ hb, (idLookup_spec pairs (happ b hb)).1⟩

theorem sameGroup_char (pairs : List (Rec × Rec × ℚ)) (a b : String) :
    sameGroupIds pairs a b ↔ appearsIn pairs a ∧ ReachP pairs a b := by
  obtain ⟨R1, R2, R3, R4, R5⟩ := idComponents_spec pairs
  constructor
  · rintro ⟨g, hg, hina, hinb⟩
    rcases List.mem_map.1 hg with ⟨comp, hcomp, rfl⟩
    have ha : a ∈ comp := (inGroupId_map_iff pairs (R3 comp hcomp) a).1 hina
    have hb : b ∈ comp := (inGroupId_map_iff pairs (R3 comp hcomp) b).1 hinb
    exact ⟨R3 comp hcomp a ha, (R1 comp hcomp a ha b).1 hb⟩
  · rintro ⟨happ, hreach⟩
    obtain ⟨comp, hcomp, ha⟩ := R2 a happ
    have hb : b ∈ comp := (R1 comp hcomp a ha b).2 hreach
    refine ⟨comp.map (fun x => idLookup (buildIdMap pairs) x),
      List.mem_map_of_mem _ hcomp, ?_, ?_⟩
    · exact (inGroupId_map_iff pairs (R3 comp hcomp) a).2 ha
    · exact (inGroupId_map_iff pairs (R3 comp hcomp) b).2 hb

theorem appearsIn_perm {pairs pairs2 : List (Rec × Rec × ℚ)}
    (h : pairs.Perm pairs2) {x : String} :
    appearsIn pairs x ↔ appearsIn pairs2 x := by
  unfold appearsIn
  constructor
  · rintro ⟨t, ht, hx⟩
    exact ⟨t, h.mem_iff.1 ht, hx⟩
  · rintro ⟨t, ht, hx⟩
    exact ⟨t, h.mem_iff.2 ht, hx⟩

theorem EdgeP_perm {pairs pairs2 : List (Rec × Rec × ℚ)}
    (h : pairs.Perm pairs2) :
    EdgeP pairs = EdgeP pairs2 := by
  funext x y
  refine propext ?_
  unfold EdgeP
  constructor
  · rintro ⟨t, ht, hx⟩
    exact ⟨t, h.mem_iff.1 ht, hx⟩
  · rintro ⟨t, ht, hx⟩
    exact ⟨t, h.mem_iff.2 ht, hx⟩

theorem ReachP_perm {pairs pairs2 : List (Rec × Rec × ℚ)}
    (h : pairs.Perm pairs2) {x y : String} :
    ReachP pairs x y ↔ ReachP pairs2 x y := by
  unfold ReachP
  rw [EdgeP_perm h]

/-! ## C8: transitive clustering, order-independent membership -/

/-- C8: if accepted pairs join A with B and B with C, then A, B and C land
in one common merge group; and the id-to-group partition is the same for
every permutation of the accepted-pair list. -/
theorem clustering_transitive_order_independent
    (pairs : List (Rec × Rec × ℚ)) (A B C : String)
    (hAB : EdgeP pairs A B) (hBC : EdgeP pairs B C) :
    (∃ g ∈ build_merge_groups pairs,
      inGroupId g A ∧ inGroupId g B ∧ inGroupId g C) ∧
    (∀ pairs2, pairs.Perm pairs2 →
      ∀ a b, sameGroupIds pairs a b ↔ sameGroupIds pairs2 a b) := by
  constructor
  · obtain ⟨R1, R2, R3, R4, R5⟩ := idComponents_spec pairs
    have happA : appearsIn pairs A := EdgeP_appears_left hAB
    obtain ⟨comp, hcomp, hA⟩ := R2 A happA
    have hB : B ∈ comp := (R1 comp hcomp A hA B).2
      (Relation.ReflTransGen.single hAB)
    have hC : C ∈ comp := (R1 comp hcomp A hA C).2
      (Relation.ReflTransGen.trans (Relation.ReflTransGen.single hAB)
        (Relation.ReflTransGen.single hBC))
    refine ⟨comp.map (fun x => idLookup (buildIdMap pairs) x),
      List.mem_map_of_mem _ hcomp,
      (inGroupId_map_iff pairs (R3 comp hcomp) A).2 hA,
      (inGroupId_map_iff pairs (R3 comp hcomp) B).2 hB,
      (inGroupId_map_iff pairs (R3 comp hcomp) C).2 hC⟩
  · intro pairs2 hperm a b
    rw [sameGroup_char, sameGroup_char, appearsIn_perm hperm,
      ReachP_perm hperm]

theorem clustering_transitive_order_independent_witness :
    (∃ g ∈ build_merge_groups
        [([("id", "A")], [("id", "B")], 1), ([("id", "B")], [("id", "C")], 1)],
      inGroupId g "A" ∧ inGroupId g "B" ∧ inGroupId g "C") ∧
    (∀ pairs2,
      ([([("id", "A")], [("id", "B")], (1 : ℚ)),
        ([("id", "B")], [("id", "C")], 1)]).Perm pairs2 →
      ∀ a b, sameGroupIds [([("id", "A")], [("id", "B")], 1),
          ([("id", "B")], [("id", "C")], 1)] a b ↔
        sameGroupIds pairs2 a b) :=
  clustering_transitive_order_independent
    [([("id", "A")], [("id", "B")], 1), ([("id", "B")], [("id", "C")], 1)]
    "A" "B" "C"
    ⟨([("id", "A")], [("id", "B")], 1), by decide, Or.inl ⟨rfl, rfl⟩⟩
    ⟨([("id", "B")], [("id", "C")], 1), by decide, Or.inl ⟨rfl, rfl⟩⟩

/-! ## Scanner soundness: every emitted pair's records come from the input -/

theorem flatten_chunksOf {α : Type _} (n : Nat) (l : List α) :
    (chunksOf n l).flatten = l := by
  induction l using chunksOf.induct n with
  | case1 => simp [chunksOf]
  | case2 x xs ih =>
      simp only [chunksOf, List.flatten_cons, ih]
      rw [List.cons_append, List.take_append_drop]

theorem mem_entry_addToBlock {bs : List (String × List (Nat × Rec))}
    {k : String} {v : Nat × Rec} {en : String × List (Nat × Rec)}
    (h : en ∈ addToBlock bs k v) :
    ∀ e ∈ en.2, (∃ en0 ∈ bs, e ∈ en0.2) ∨ e = v := by
  unfold addToBlock at h
  by_cases hc : (bs.map Prod.fst).contains k = true
  · rw [if_pos hc] at h
    rcases List.mem_map.1 h with ⟨en0, hen0, heq⟩
    intro e he
    by_cases hk : en0.1 = k
    · rw [if_pos hk] at heq
      rw [← heq] at he
      rcases List.mem_append.1 he with he | he
      · exact Or.inl ⟨en0, hen0, he⟩
      · exact Or.inr (List.mem_singleton.1 he)
    · rw [if_neg hk] at heq
      rw [← heq] at he
      exact Or.inl ⟨en0, hen0, he⟩
  · rw [if_neg hc] at h
    rcases List.mem_append.1 h with h | h
    · exact fun e he => Or.inl ⟨en, h, he⟩
    · intro e he
      rw [List.mem_singleton.1 h] at he
      exact Or.inr (List.mem_singleton.1 he)

theorem blocks_entry_sound (contacts : List Rec) :
    ∀ entry ∈ blocksOf contacts, ∀ e ∈ entry.2, e ∈ contacts.enum := by
  suffices h : ∀ (l : List (Nat × Rec)) (bs : List (String × List (Nat × Rec))),
      (∀ en ∈ bs, ∀ e ∈ en.2, e ∈ contacts.enum) →
      (∀ ic ∈ l, ic ∈ contacts.enum) →
      ∀ en ∈ l.foldl (fun bs ic => addToBlock bs (blockKey ic.2) ic) bs,
        ∀ e ∈ en.2, e ∈ contacts.enum by
    intro entry hentry
    exact h contacts.enum [] (by intro en hen; simp at hen)
      (fun ic hic => hic) entry hentry
  intro l
  induction l with
  | nil =>
      intro bs hbs _ en hen
      exact hbs en hen
  | cons ic rest ih =>
      intro bs hbs hl en hen
      rw [List.foldl_cons] at hen
      refine ih _ ?_ (fun ic2 h2 => hl ic2 (List.mem_cons_of_mem ic h2))
        en hen
      intro en2 hen2 e he
      rcases mem_entry_addToBlock hen2 e he with ⟨en0, hen0, he0⟩ | heq
      · exact hbs en0 hen0 e he0
      · rw [heq]
        exact hl ic (List.mem_cons_self ic rest)

theorem pairsToCompare_sound (contacts : List Rec) :
    ∀ pr ∈ pairsToCompare contacts,
      (pr.2.1, pr.1.1) ∈ contacts.enum ∧ (pr.2.2, pr.1.2) ∈ contacts.enum := by
  intro pr hpr
  unfold pairsToCompare at hpr
  rw [List.mem_flatMap] at hpr
  obtain ⟨entry, hentry, hin⟩ := hpr
  rw [List.mem_map] at hin
  obtain ⟨p, hp, rfl⟩ := hin
  obtain ⟨h1, h2⟩ := mem_allPairs hp
  have hs := blocks_entry_sound contacts entry hentry
  exact ⟨hs p.1 h1, hs p.2 h2⟩

theorem find_duplicates_sound
    (oracle : List (Rec × Rec) → Except String (List MatchDecision))
    (threshold : ℚ) (proceed : Bool) (contacts : List Rec) :
    ∀ t ∈ find_duplicates oracle threshold proceed contacts,
      t.1 ∈ contacts ∧ t.2.1 ∈ contacts := by
  intro t ht
  unfold find_duplicates at ht
  by_cases hpr : proceed = false
  · rw [if_pos hpr] at ht
    simp at ht
  · rw [if_neg hpr] at ht
    rw [List.mem_flatMap] at ht
    obtain ⟨batch, hbatch, hin⟩ := ht
    unfold processBatch at hin
    rw [List.mem_filterMap] at hin
    obtain ⟨dij, hdij, heq⟩ := hin
    have hsome : (contacts.getD dij.2.1 [], contacts.getD dij.2.2 [],
        dij.1.confidence) = t := by
      by_cases hc : (dij.1.should_merge &&
          decide (dij.1.confidence ≥ threshold)) = true
      · rw [if_pos hc] at heq
        exact Option.some.inj heq
      · rw [if_neg hc] at heq
        exact absurd heq (by simp)
    have hidx : dij.2 ∈ batch.map Prod.snd := (List.of_mem_zip hdij).2
    obtain ⟨prc, hprc, hprceq⟩ := List.mem_map.1 hidx
    have hptc : prc ∈ pairsToCompare contacts := by
      have hfl : prc ∈ (chunksOf batchSize (pairsToCompare contacts)).flatten :=
        List.mem_flatten.2 ⟨batch, hbatch, hprc⟩
      rwa [flatten_chunksOf] at hfl
    obtain ⟨hi, hj⟩ := pairsToCompare_sound contacts prc hptc
    obtain ⟨hilt, hival⟩ := List.mem_enum hi
    obtain ⟨hjlt, hjval⟩ := List.mem_enum hj
    constructor
    · have : t.1 = contacts.getD dij.2.1 [] := by rw [← hsome]
      rw [this, ← hprceq, List.getD_eq_getElem contacts [] hilt, ← hival]
      rw [hival]
      exact List.getElem_mem hilt
    · have : t.2.1 = contacts.getD dij.2.2 [] := by rw [← hsome]
      rw [this, ← hprceq, List.getD_eq_getElem contacts [] hjlt, ← hjval]
      rw [hjval]
      exact List.getElem_mem hjlt

/-! ## Orchestrator lemmas -/

theorem mergeGroups_ok (groups : List (List Rec)) (ts : String)
    (hne : ∀ g ∈ groups, g ≠ []) :
    ∃ ms hist, mergeGroups groups ts = .ok (ms, hist) ∧
      ms.length = groups.length := by
  suffices h : ∀ (gs : List (List Rec))
      (acc : List MergedEntity × List MergedEntity),
      (∀ g ∈ gs, g ≠ []) →
      ∃ ms hist, (gs.foldlM (fun acc g => do
          let r := merge_entities acc.2 g none ts
          let m ← r.1
          pure (acc.1 ++ [m], r.2)) acc : Except String _) = .ok (ms, hist) ∧
        ms.length = acc.1.length + gs.length by
    obtain ⟨ms, hist, heq, hlen⟩ := h groups ([], []) hne
    exact ⟨ms, hist, heq, by simpa using hlen⟩
  intro gs
  induction gs with
  | nil =>
      intro acc _
      exact ⟨acc.1, acc.2, rfl, by simp⟩
  | cons g rest ih =>
      intro acc hgs
      cases g with
      | nil => exact absurd rfl (hgs [] (List.mem_cons_self [] rest))
      | cons e0 grest =>
          obtain ⟨m, hm⟩ : ∃ m, merge_entities acc.2 (e0 :: grest) none ts =
              (.ok m, acc.2 ++ [m]) := ⟨_, rfl⟩
          have hstep : ((do
              let r := merge_entities acc.2 (e0 :: grest) none ts
              let m2 ← r.1
              pure (acc.1 ++ [m2], r.2)) : Except String
                (List MergedEntity × List MergedEntity)) =
              .ok (acc.1 ++ [m], acc.2 ++ [m]) := by
            rw [hm]
            rfl
          obtain ⟨ms, hist, heq, hlen⟩ := ih (acc.1 ++ [m], acc.2 ++ [m])
            (fun g2 h2 => hgs g2 (List.mem_cons_of_mem _ h2))
          refine ⟨ms, hist, ?_, ?_⟩
          · rw [List.foldlM_cons, hstep]
            exact heq
          · rw [hlen]
            show (acc.1 ++ [m]).length + rest.length =
              acc.1.length + (rest.length + 1)
            rw [List.length_append, List.length_singleton]
            omega

theorem strList_contains_iff {l : List String} {x : String} :
    l.contains x = true ↔ x ∈ l := by
  rw [List.contains_iff_exists_mem_beq]
  constructor
  · rintro ⟨a, ha, hbeq⟩
    rwa [eq_of_beq hbeq]
  · intro h
    exact ⟨x, h, by simp⟩

theorem length_filter_split {α : Type _} (p : α → Bool) (l : List α) :
    (l.filter p).length + (l.filter (fun x => !(p x))).length = l.length := by
  induction l with
  | nil => rfl
  | cons x xs ih =>
      by_cases hx : p x = true
      · rw [List.filter_cons_of_pos hx,
          @List.filter_cons_of_neg _ (fun y => !(p y)) x xs (by simp [hx])]
        simp only [List.length_cons]
        omega
      · have hx2 : (!(p x)) = true := by
          simp only [Bool.not_eq_true] at hx
          simp [hx]
        rw [List.filter_cons_of_neg hx,
          @List.filter_cons_of_pos _ (fun y => !(p y)) x xs hx2]
        simp only [List.length_cons]
        omega

theorem filter_nodup_length_eq {S ids : List String} (hnod : ids.Nodup)
    (hS : S.Nodup) (hsub : ∀ x ∈ S, x ∈ ids) :
    (ids.filter (fun x => S.contains x)).length = S.length := by
  have h1 : (ids.filter (fun x => S.contains x)).Nodup := hnod.filter _
  have hset : (ids.filter (fun x => S.contains x)).toFinset = S.toFinset := by
    ext x
    rw [List.mem_toFinset, List.mem_toFinset, List.mem_filter]
    constructor
    · rintro ⟨-, h⟩
      exact strList_contains_iff.1 h
    · intro h
      exact ⟨hsub x h, strList_contains_iff.2 h⟩
  rw [← List.toFinset_card_of_nodup h1, ← List.toFinset_card_of_nodup hS,
    hset]

theorem sum_map_intCast (l : List (List String)) :
    (l.map (fun c => (c.length : ℤ))).sum = ((l.map List.length).sum : ℤ) := by
  induction l with
  | nil => rfl
  | cons c rest ih =>
      simp only [List.map_cons, List.sum_cons, ih]
      push_cast
      ring

theorem sum_map_sub_one (l : List (List String)) :
    (l.map (fun c => (c.length : ℤ) - 1)).sum =
      (l.map (fun c => (c.length : ℤ))).sum - l.length := by
  induction l with
  | nil => simp
  | cons c rest ih =>
      simp only [List.map_cons, List.sum_cons, List.length_cons, ih]
      push_cast
      ring

theorem deduplicate_eq
    (oracle : List (Rec × Rec) → Except String (List MatchDecision))
    (threshold : ℚ) (proceed : Bool) (contacts : List Rec) (ts ptime : String)
    (ms hist : List MergedEntity)
    (hok : mergeGroups (build_merge_groups
      (find_duplicates oracle threshold proceed contacts)) ts =
        .ok (ms, hist)) :
    deduplicate oracle threshold proceed contacts ts ptime = .ok
      (ms.map Sum.inl ++ (contacts.filter (fun c =>
        !(((build_merge_groups (find_duplicates oracle threshold proceed
          contacts)).flatMap (fun g => g.map recId)).contains
            (recId c)))).map Sum.inr,
       ⟨contacts.length,
        (find_duplicates oracle threshold proceed contacts).length,
        (build_merge_groups (find_duplicates oracle threshold proceed
          contacts)).length,
        ms.length + (contacts.filter (fun c =>
          !(((build_merge_groups (find_duplicates oracle threshold proceed
            contacts)).flatMap (fun g => g.map recId)).contains
              (recId c)))).length,
        (contacts.length : ℤ) - ((ms.length : ℤ) +
          ((contacts.filter (fun c =>
            !(((build_merge_groups (find_duplicates oracle threshold proceed
              contacts)).flatMap (fun g => g.map recId)).contains
                (recId c)))).length : ℤ)),
        ptime⟩) := by
  simp only [deduplicate]
  rw [hok]
  rfl

theorem countP_isLeft_out (ms : List MergedEntity) (uc : List Rec) :
    (ms.map Sum.inl ++ uc.map Sum.inr : List (MergedEntity ⊕ Rec)).countP
      (fun o => o.isLeft) = ms.length := by
  rw [List.countP_append, List.countP_map, List.countP_map]
  have h1 : ((fun o : MergedEntity ⊕ Rec => o.isLeft) ∘ Sum.inl) =
      fun _ => true := rfl
  have h2 : ((fun o : MergedEntity ⊕ Rec => o.isLeft) ∘ Sum.inr) =
      fun _ => false := rfl
  rw [h1, h2, List.countP_true, List.countP_false]
  simp

theorem countP_isRight_out (ms : List MergedEntity) (uc : List Rec) :
    (ms.map Sum.inl ++ uc.map Sum.inr : List (MergedEntity ⊕ Rec)).countP
      (fun o => o.isRight) = uc.length := by
  rw [List.countP_append, List.countP_map, List.countP_map]
  have h1 : ((fun o : MergedEntity ⊕ Rec => o.isRight) ∘ Sum.inl) =
      fun _ => false := rfl
  have h2 : ((fun o : MergedEntity ⊕ Rec => o.isRight) ∘ Sum.inr) =
      fun _ => true := rfl
  rw [h1, h2, List.countP_true, List.countP_false]
  simp

/-! ## C2: count conservation of the pipeline statistics -/

/-- C2: for every pipeline run on contacts with unique record ids, the
statistics satisfy the conservation law: `final_count` equals the number of
merged entities plus the number of untouched singletons in the output,
`reduction` equals `original_count - final_count`, and `reduction` equals
the sum over merge groups of `(group_size - 1)`. -/
theorem stats_conservation
    (oracle : List (Rec × Rec) → Except String (List MatchDecision))
    (threshold : ℚ) (proceed : Bool) (contacts : List Rec) (ts ptime : String)
    (hids : (contacts.map recId).Nodup) :
    ∃ out stats,
      deduplicate oracle threshold proceed contacts ts ptime =
        .ok (out, stats) ∧
      stats.final_count = out.countP (fun o => o.isLeft) +
        out.countP (fun o => o.isRight) ∧
      out.countP (fun o => o.isLeft) = stats.merge_groups ∧
      stats.reduction = (stats.original_count : ℤ) -
        (stats.final_count : ℤ) ∧
      stats.reduction = ((build_merge_groups (find_duplicates oracle
        threshold proceed contacts)).map
          (fun g => (g.length : ℤ) - 1)).sum := by
  obtain ⟨R1, R2, R3, R4, R5⟩ :=
    idComponents_spec (find_duplicates oracle threshold proceed contacts)
  have hne : ∀ g ∈ build_merge_groups (find_duplicates oracle threshold
      proceed contacts), g ≠ [] := by
    intro g hg
    unfold build_merge_groups at hg
    rcases List.mem_map.1 hg with ⟨comp, hcomp, rfl⟩
    intro hnil
    exact (R4 comp hcomp).1 (List.map_eq_nil_iff.1 hnil)
  obtain ⟨ms, hist, hok, hmslen⟩ := mergeGroups_ok
    (build_merge_groups (find_duplicates oracle threshold proceed contacts))
    ts hne
  have hded := deduplicate_eq oracle threshold proceed contacts ts ptime
    ms hist hok
  refine ⟨_, _, hded, ?_, ?_, ?_, ?_⟩
  · rw [countP_isLeft_out, countP_isRight_out]
  · rw [countP_isLeft_out]
    exact hmslen
  · push_cast
    ring
  · have hflat : ∀ (cl : List (List String)),
        (∀ comp ∈ cl, ∀ x ∈ comp, appearsIn (find_duplicates oracle threshold
          proceed contacts) x) →
        ((cl.map (fun comp => comp.map (fun x =>
          idLookup (buildIdMap (find_duplicates oracle threshold proceed
            contacts)) x))).flatMap (fun g => g.map recId)) = cl.flatten := by
      intro cl
      induction cl with
      | nil => intro _; rfl
      | cons comp rest ih =>
          intro hall
          rw [List.map_cons, List.flatMap_cons, List.flatten_cons,
            ih (fun c hc => hall c (List.mem_cons_of_mem comp hc))]
          congr 1
          rw [List.map_map]
          have hpt : ∀ x ∈ comp, (recId ∘ fun x =>
              idLookup (buildIdMap (find_duplicates oracle threshold proceed
                contacts)) x) x = id x := fun x hx =>
            (idLookup_spec _ (hall comp (List.mem_cons_self comp rest) x hx)).1
          rw [List.map_congr_left hpt, List.map_id]
    have hflat2 : (build_merge_groups (find_duplicates oracle threshold
        proceed contacts)).flatMap (fun g => g.map recId) =
        (idComponents (find_duplicates oracle threshold proceed
          contacts)).flatten :=
      hflat (idComponents (find_duplicates oracle threshold proceed contacts))
        R3
    have hS_sub : ∀ x ∈ (idComponents (find_duplicates oracle threshold
        proceed contacts)).flatten, x ∈ contacts.map recId := by
      intro x hx
      rcases List.mem_flatten.1 hx with ⟨comp, hcomp, hxc⟩
      rcases R3 comp hcomp x hxc with ⟨t, ht, hx1 | hx2⟩
      · exact List.mem_map.2 ⟨t.1,
          (find_duplicates_sound oracle threshold proceed contacts t ht).1,
          hx1⟩
      · exact List.mem_map.2 ⟨t.2.1,
          (find_duplicates_sound oracle threshold proceed contacts t ht).2,
          hx2⟩
    have hS_nodup : (idComponents (find_duplicates oracle threshold proceed
        contacts)).flatten.Nodup := by
      rw [List.nodup_flatten]
      exact ⟨fun comp hcomp => (R4 comp hcomp).2,
        R5.imp (fun {a b} h x hxa hxb => h x hxa hxb)⟩
    have hcount : (contacts.filter (fun c => ((idComponents (find_duplicates
        oracle threshold proceed contacts)).flatten).contains
          (recId c))).length =
        (idComponents (find_duplicates oracle threshold proceed
          contacts)).flatten.length := by
      have h1 : (contacts.filter (fun c => ((idComponents (find_duplicates
          oracle threshold proceed contacts)).flatten).contains
            (recId c))).length =
          ((contacts.map recId).filter (fun x => ((idComponents
            (find_duplicates oracle threshold proceed
              contacts)).flatten).contains x)).length := by
        rw [← List.countP_eq_length_filter, ← List.countP_eq_length_filter,
          List.countP_map]
        rfl
      rw [h1]
      exact filter_nodup_length_eq hids hS_nodup hS_sub
    have hsplit : (contacts.filter (fun c => ((idComponents (find_duplicates
        oracle threshold proceed contacts)).flatten).contains
          (recId c))).length +
        (contacts.filter (fun c => !(((idComponents (find_duplicates oracle
          threshold proceed contacts)).flatten).contains
            (recId c)))).length = contacts.length :=
      length_filter_split (fun c => ((idComponents (find_duplicates oracle
        threshold proceed contacts)).flatten).contains (recId c)) contacts
    have hmap : (build_merge_groups (find_duplicates oracle threshold
        proceed contacts)).map (fun g => (g.length : ℤ) - 1) =
        (idComponents (find_duplicates oracle threshold proceed
          contacts)).map (fun comp => (comp.length : ℤ) - 1) := by
      unfold build_merge_groups
      rw [List.map_map]
      refine List.map_congr_left ?_
      intro comp _
      show ((comp.map _).length : ℤ) - 1 = (comp.length : ℤ) - 1
      rw [List.length_map]
    rw [hflat2, hmap, sum_map_sub_one, sum_map_intCast]
    have f1 : ms.length = (idComponents (find_duplicates oracle threshold
        proceed contacts)).length := by
      rw [hmslen]
      unfold build_merge_groups
      exact List.length_map _ _
    have f3 : (idComponents (find_duplicates oracle threshold proceed
        contacts)).flatten.length = ((idComponents (find_duplicates oracle
          threshold proceed contacts)).map List.length).sum :=
      List.length_flatten _
    show (contacts.length : ℤ) - ((ms.length : ℤ) +
        ((contacts.filter (fun c => !(((idComponents (find_duplicates oracle
          threshold proceed contacts)).flatten).contains
            (recId c)))).length : ℤ)) =
      (((idComponents (find_duplicates oracle threshold proceed
        contacts)).map List.length).sum : ℤ) -
      ((idComponents (find_duplicates oracle threshold proceed
        contacts)).length : ℤ)
    omega

theorem stats_conservation_witness :
    ∃ out stats,
      deduplicate (fun _ => .error "down") (7 / 10) true
        [[("id", "a")], [("id", "b")]] "t" "0:00" = .ok (out, stats) ∧
      stats.final_count = out.countP (fun o => o.isLeft) +
        out.countP (fun o => o.isRight) ∧
      out.countP (fun o => o.isLeft) = stats.merge_groups ∧
      stats.reduction = (stats.original_count : ℤ) -
        (stats.final_count : ℤ) ∧
      stats.reduction = ((build_merge_groups (find_duplicates
        (fun _ => .error "down") (7 / 10) true
          [[("id", "a")], [("id", "b")]])).map
            (fun g => (g.length : ℤ) - 1)).sum :=
  stats_conservation (fun _ => .error "down") (7 / 10) true
    [[("id", "a")], [("id", "b")]] "t" "0:00" (by decide)

end CrmER
